import Mathlib

/-!
Verification development for the MMVT statistical-rate-matrix analysis of
seekr2 (`seekr2/modules/mmvt_analyze.py`).  The numerical code is embedded
shallowly over the rationals: numpy float arrays become functions/`Matrix`
over `ℚ`, Python dicts become association lists or explicitly supported
functions, and Python `assert`/exceptions become `Option`/`Except` results.
Division by zero in `ℚ` is total (yielding 0) where numpy would produce
inf/nan; each place where this matters is noted next to the definition.
-/

namespace Seekr2

/-! ### `mmvt_Q_N_R` (mmvt_analyze.py lines 34-59)

Combines the per-anchor transition counts `N_i_j_alpha` and incubation-time
totals `R_i_alpha_total` into the global `N_ij` matrix, `R_i` vector, and
rate matrix `Q`.  Indices: `m` milestones, `A` anchors. -/

/-- Accumulation of `mmvt_Nij[i,j] += T * pi_alpha[alpha] * N_i_j_alpha[alpha][i,j]
/ T_alpha_total[alpha]` over all anchors. -/
def mmvt_Nij (m A : ℕ) (N_i_j_alpha : Fin A → Matrix (Fin m) (Fin m) ℚ)
    (T_alpha_total : Fin A → ℚ) (T : ℚ) (pi_alpha : Fin A → ℚ) :
    Matrix (Fin m) (Fin m) ℚ :=
  fun i j => ∑ alpha : Fin A,
    T * pi_alpha alpha * N_i_j_alpha alpha i j / T_alpha_total alpha

/-- Accumulation of `mmvt_Ri[i,0] += T * pi_alpha[alpha] *
R_i_alpha_total[alpha][i,0] / T_alpha_total[alpha]` over all anchors. -/
def mmvt_Ri (m A : ℕ) (R_i_alpha_total : Fin A → Fin m → ℚ)
    (T_alpha_total : Fin A → ℚ) (T : ℚ) (pi_alpha : Fin A → ℚ) :
    Fin m → ℚ :=
  fun i => ∑ alpha : Fin A,
    T * pi_alpha alpha * R_i_alpha_total alpha i / T_alpha_total alpha

/-- The off-diagonal phase of building `mmvt_Q`: for `i ≠ j`,
`mmvt_Q[i,j] = mmvt_Nij[i,j] / mmvt_Ri[i,0]` when `mmvt_Ri[i,0] > 0`,
otherwise (including the skipped diagonal) the initial 0. -/
def mmvt_Q_offdiag (m : ℕ) (Nij : Matrix (Fin m) (Fin m) ℚ)
    (Ri : Fin m → ℚ) : Matrix (Fin m) (Fin m) ℚ :=
  fun i j =>
    if i = j then 0
    else if 0 < Ri i then Nij i j / Ri i else 0

/-- Final `mmvt_Q`: the diagonal pass sets
`mmvt_Q[i,i] = -np.sum(mmvt_Q[i,:])`, taken when the diagonal still holds
its initial 0 and all off-diagonal entries of row `i` are final. -/
def mmvt_Q (m A : ℕ) (N_i_j_alpha : Fin A → Matrix (Fin m) (Fin m) ℚ)
    (R_i_alpha_total : Fin A → Fin m → ℚ) (T_alpha_total : Fin A → ℚ)
    (T : ℚ) (pi_alpha : Fin A → ℚ) : Matrix (Fin m) (Fin m) ℚ :=
  fun i j =>
    if i = j then
      -∑ k : Fin m,
        mmvt_Q_offdiag m (mmvt_Nij m A N_i_j_alpha T_alpha_total T pi_alpha)
          (mmvt_Ri m A R_i_alpha_total T_alpha_total T pi_alpha) i k
    else
      mmvt_Q_offdiag m (mmvt_Nij m A N_i_j_alpha T_alpha_total T pi_alpha)
        (mmvt_Ri m A R_i_alpha_total T_alpha_total T pi_alpha) i j

/-! ### Per-anchor rate matrices of `make_mcmc_quantities`
(mmvt_analyze.py lines 1000-1019)

The per-anchor dicts `N_i_j_alpha[alpha]` / `R_i_alpha[alpha]` are densified
into `this_mmvt_Nij_alpha` / `this_mmvt_Ri_alpha` (`key in dict` lookups,
absent keys keep the initial 0), and `this_mmvt_Qij_alpha` is built with
`Q[i,j] = N[i,j]/R[i]` for `i ≠ j` with `R[i] > 0`, the diagonal
accumulating the negated contributions. -/

/-- Densification `this_mmvt_Nij_alpha[i,j] = N_i_j_alpha[alpha][(i,j)]`
(0 when the key is absent). -/
def this_mmvt_Nij_alpha (m : ℕ) (Ndict : List ((ℕ × ℕ) × ℚ)) :
    Matrix (Fin m) (Fin m) ℚ :=
  fun i j => ((Ndict.lookup (i.val, j.val)).getD 0)

/-- Densification `this_mmvt_Ri_alpha[i,0] = R_i_alpha[alpha][i]`
(0 when the key is absent). -/
def this_mmvt_Ri_alpha (m : ℕ) (Rdict : List (ℕ × ℚ)) : Fin m → ℚ :=
  fun i => ((Rdict.lookup i.val).getD 0)

/-- Off-diagonal entries of the per-anchor rate matrix. -/
def this_mmvt_Qij_alpha_offdiag (m : ℕ) (N : Matrix (Fin m) (Fin m) ℚ)
    (R : Fin m → ℚ) : Matrix (Fin m) (Fin m) ℚ :=
  fun i j =>
    if i = j then 0
    else if 0 < R i then N i j / R i else 0

/-- Per-anchor rate matrix `this_mmvt_Qij_alpha`: the diagonal entry ends
as the negated sum of the very same guarded contributions that were written
off-diagonal. -/
def this_mmvt_Qij_alpha (m : ℕ) (Ndict : List ((ℕ × ℕ) × ℚ))
    (Rdict : List (ℕ × ℚ)) : Matrix (Fin m) (Fin m) ℚ :=
  fun i j =>
    if i = j then
      -∑ k : Fin m,
        this_mmvt_Qij_alpha_offdiag m (this_mmvt_Nij_alpha m Ndict)
          (this_mmvt_Ri_alpha m Rdict) i k
    else
      this_mmvt_Qij_alpha_offdiag m (this_mmvt_Nij_alpha m Ndict)
        (this_mmvt_Ri_alpha m Rdict) i j

/-! ### `make_new_Nij_alpha` (mmvt_analyze.py lines 61-72) -/

/-- `new_mmvt_Nij_alpha[i,j] = mmvt_Qij_alpha[i,j] * mmvt_Ri_alpha[i,0]`
for `i ≠ j`; the skipped diagonal keeps its initial 0. -/
def make_new_Nij_alpha (m : ℕ) (Qij : Matrix (Fin m) (Fin m) ℚ)
    (Ri : Fin m → ℚ) : Matrix (Fin m) (Fin m) ℚ :=
  fun i j => if i = j then 0 else Qij i j * Ri i

/-! ### The MCMC loop's sample retention (mmvt_analyze.py lines 1114-1168)

`monte_carlo_milestoning_error` runs `for counter in range(num*stride + skip)`;
a sample is appended to the output lists exactly when
`counter > skip and counter % stride == 0`, and `new_data_sample` is
(re)assigned on every iteration.  The final
`assert new_data_sample is not None` therefore passes whenever at least one
iteration ran.  The pair below carries (number of retained samples,
whether `new_data_sample` is not `None` at the assert). -/

def monte_carlo_retained (num skip stride : ℕ) : ℕ × Bool :=
  (List.range (num * stride + skip)).foldl
    (fun acc counter =>
      (if skip < counter ∧ counter % stride = 0 then acc.1 + 1 else acc.1,
       true))
    (0, false)

/-! ## Helper lemmas -/

/-- A matrix whose diagonal is the negated full-row sum of a zero-diagonal
matrix has all row sums equal to zero. -/
theorem rowsum_zero_of_neg_diag (m : ℕ) (Qoff : Matrix (Fin m) (Fin m) ℚ)
    (hdiag : ∀ i, Qoff i i = 0) (i : Fin m) :
    ∑ j : Fin m, (if i = j then -∑ k : Fin m, Qoff i k else Qoff i j) = 0 := by
  classical
  have h1 : ∑ j : Fin m, (if i = j then -∑ k : Fin m, Qoff i k else Qoff i j)
      = (if i = i then -∑ k : Fin m, Qoff i k else Qoff i i)
        + ∑ j ∈ Finset.univ.erase i,
            (if i = j then -∑ k : Fin m, Qoff i k else Qoff i j) :=
    (Finset.add_sum_erase _ _ (Finset.mem_univ i)).symm
  have h2 : ∑ j ∈ Finset.univ.erase i,
      (if i = j then -∑ k : Fin m, Qoff i k else Qoff i j)
      = ∑ j ∈ Finset.univ.erase i, Qoff i j :=
    Finset.sum_congr rfl (fun j hj => by
      rw [if_neg (Ne.symm (Finset.ne_of_mem_erase hj))])
  have h3 : ∑ j ∈ Finset.univ.erase i, Qoff i j = ∑ k : Fin m, Qoff i k := by
    rw [← Finset.add_sum_erase _ (fun j => Qoff i j) (Finset.mem_univ i), hdiag i,
      zero_add]
  rw [h1, h2, h3, if_pos rfl, neg_add_cancel]

theorem foldl_retained_count (l : List ℕ) (P : ℕ → Prop) [DecidablePred P]
    (a : ℕ) (b : Bool) :
    (l.foldl (fun acc counter =>
      ((if P counter then acc.1 + 1 else acc.1), true)) (a, b)).1
      = a + l.countP (fun c => decide (P c)) := by
  induction l generalizing a b with
  | nil => simp
  | cons x xs ih =>
    simp only [List.foldl_cons, List.countP_cons, decide_eq_true_eq]
    by_cases hx : P x
    · rw [if_pos hx, if_pos hx, ih]
      omega
    · rw [if_neg hx, if_neg hx, ih]
      omega

/-- Counting multiples of `s` strictly above `a*s` in `range (b*s)`:
there are `b - a - 1` of them (truncated subtraction). -/
theorem countP_multiples (s a : ℕ) (hs : 0 < s) :
    ∀ b : ℕ, (List.range (b * s)).countP
        (fun c => decide (a * s < c ∧ c % s = 0)) = b - a - 1 := by
  intro b
  induction b with
  | zero => simp
  | succ b ih =>
    have hrange : List.range ((b + 1) * s) =
        List.range (b * s) ++ (List.range s).map (b * s + ·) := by
      rw [Nat.succ_mul, List.range_add]
    rw [hrange, List.countP_append, ih, List.countP_map]
    have hcount : (List.range s).countP
        ((fun c => decide (a * s < c ∧ c % s = 0)) ∘ (b * s + ·))
        = if a < b then 1 else 0 := by
      obtain ⟨t, rfl⟩ : ∃ t, s = t + 1 := ⟨s - 1, by omega⟩
      rw [List.range_succ_eq_map, List.countP_cons, List.countP_map]
      have h1 : ((List.range t).countP
          (((fun c => decide (a * (t + 1) < c ∧ c % (t + 1) = 0))
            ∘ (b * (t + 1) + ·)) ∘ Nat.succ)) = 0 := by
        rw [List.countP_eq_zero]
        intro c hc
        have hct : c < t := List.mem_range.mp hc
        simp only [Function.comp_apply, decide_eq_true_eq, not_and]
        intro _
        have hmod : (b * (t + 1) + Nat.succ c) % (t + 1) = Nat.succ c % (t + 1) := by
          rw [Nat.add_comm, Nat.add_mul_mod_self_right]
        rw [hmod, Nat.mod_eq_of_lt (by omega)]
        omega
      have h0 : (((fun c => decide (a * (t + 1) < c ∧ c % (t + 1) = 0))
          ∘ (b * (t + 1) + ·)) 0 = true) ↔ a < b := by
        simp only [Function.comp_apply, Nat.add_zero, decide_eq_true_eq,
          Nat.mul_mod_left, and_true]
        exact Nat.mul_lt_mul_right hs
      rw [h1]
      by_cases hab : a < b
      · rw [if_pos (h0.mpr hab), if_pos hab]
      · rw [if_neg (fun hcon => hab (h0.mp hcon)), if_neg hab]
    rw [hcount]
    by_cases hab : a < b
    · rw [if_pos hab]
      omega
    · rw [if_neg hab]
      omega

/-! ## Claims C2, C10, C6, C7 -/

/-- C2: every rate matrix the analysis computes — the global matrix built by
`mmvt_Q_N_R` and each per-anchor matrix `mmvt_Qij_alpha` built by
`make_mcmc_quantities` — has every row summing to zero: the diagonal equals
the negated sum of that row's off-diagonal entries. -/
theorem C2_rate_matrix_rows_sum_to_zero
    (m A : ℕ) (N_i_j_alpha : Fin A → Matrix (Fin m) (Fin m) ℚ)
    (R_i_alpha_total : Fin A → Fin m → ℚ) (T_alpha_total : Fin A → ℚ)
    (T : ℚ) (pi_alpha : Fin A → ℚ)
    (Ndict : List ((ℕ × ℕ) × ℚ)) (Rdict : List (ℕ × ℚ)) (i : Fin m) :
    (∑ j : Fin m,
      mmvt_Q m A N_i_j_alpha R_i_alpha_total T_alpha_total T pi_alpha i j) = 0
    ∧ (∑ j : Fin m, this_mmvt_Qij_alpha m Ndict Rdict i j) = 0 := by
  constructor
  · have h := rowsum_zero_of_neg_diag m
      (mmvt_Q_offdiag m (mmvt_Nij m A N_i_j_alpha T_alpha_total T pi_alpha)
        (mmvt_Ri m A R_i_alpha_total T_alpha_total T pi_alpha))
      (by intro k; simp [mmvt_Q_offdiag]) i
    simp only [mmvt_Q]
    exact h
  · have h := rowsum_zero_of_neg_diag m
      (this_mmvt_Qij_alpha_offdiag m (this_mmvt_Nij_alpha m Ndict)
        (this_mmvt_Ri_alpha m Rdict))
      (by intro k; simp [this_mmvt_Qij_alpha_offdiag]) i
    simp only [this_mmvt_Qij_alpha]
    exact h

/-- C10: round-trip of the per-anchor rate construction.  If `Ri` is
strictly positive, `Nij` has zero diagonal, and `Qij` agrees off-diagonal
with the per-anchor rule `Qij[i,j] = Nij[i,j]/Ri[i]` of
`make_mcmc_quantities`, then `make_new_Nij_alpha Qij Ri` recovers `Nij`
exactly. -/
theorem C10_make_new_Nij_alpha_roundtrip
    (m : ℕ) (Ri : Fin m → ℚ) (Nij Qij : Matrix (Fin m) (Fin m) ℚ)
    (hR : ∀ i, 0 < Ri i) (hdiag : ∀ i, Nij i i = 0)
    (hQ : ∀ i j, i ≠ j → Qij i j = Nij i j / Ri i) :
    make_new_Nij_alpha m Qij Ri = Nij := by
  funext i j
  by_cases hij : i = j
  · subst hij
    simp [make_new_Nij_alpha, hdiag i]
  · simp only [make_new_Nij_alpha, if_neg hij, hQ i j hij]
    rw [div_mul_cancel₀ _ (ne_of_gt (hR i))]

/-- Witness for C10 at a concrete 2×2 input. -/
theorem C10_make_new_Nij_alpha_roundtrip_witness :
    make_new_Nij_alpha 2 (fun i j => if i = j then (0 : ℚ) else (2 * i.val + j.val + 1) / 3)
      (fun _ => 3)
      = fun i j => if i = j then (0 : ℚ) else 2 * i.val + j.val + 1 :=
  C10_make_new_Nij_alpha_roundtrip 2 (fun _ => 3)
    (fun i j => if i = j then (0 : ℚ) else 2 * i.val + j.val + 1)
    (fun i j => if i = j then (0 : ℚ) else (2 * i.val + j.val + 1) / 3)
    (fun _ => by norm_num)
    (fun i => by simp)
    (fun i j hij => by simp [if_neg hij])

/-- C6 (code bug evidence): with the default burn-in `skip = 10·N²` and
`stride = N²`, the loop `for counter in range(num*stride + skip)` with
retention condition `counter > skip and counter % stride == 0` retains
exactly `num - 1` samples, not `num`: the strict `counter > skip` excludes
the multiple `counter = skip` itself. -/
theorem C6_mcmc_retains_num_minus_one (num N : ℕ) (hnum : 1 ≤ num) (hN : 1 ≤ N) :
    (monte_carlo_retained num (10 * N ^ 2) (N ^ 2)).1 = num - 1 := by
  have hs : 0 < N ^ 2 := by positivity
  rw [monte_carlo_retained, foldl_retained_count, Nat.zero_add]
  have hshape : num * N ^ 2 + 10 * N ^ 2 = (num + 10) * N ^ 2 := by ring
  rw [hshape]
  have := countP_multiples (N ^ 2) 10 hs (num + 10)
  calc (List.range ((num + 10) * N ^ 2)).countP
        (fun c => decide (10 * N ^ 2 < c ∧ c % N ^ 2 = 0))
      = (num + 10) - 10 - 1 := this
    _ = num - 1 := by omega

/-- Witness for C6: with `num = 2`, `N = 1` (so skip = 10, stride = 1) the
loop retains exactly 1 = 2 - 1 sample. -/
theorem C6_mcmc_retains_num_minus_one_witness :
    (monte_carlo_retained 2 (10 * 1 ^ 2) (1 ^ 2)).1 = 2 - 1 :=
  C6_mcmc_retains_num_minus_one 2 1 (by norm_num) (by norm_num)

/-! ## Claim C3: `fill_out_data_quantities` (mmvt_analyze.py lines 901-965)

The model topology (from `Elber_anchor` in
`seekr2/modules/elber_cvs/elber_cv_base.py`; the MMVT anchor class exposes
the same `index`/`bulkstate`/`milestones` attributes and
`alias_from_neighbor_id` method): an anchor records its index, its
bulk-state flag, and its bounding milestones. -/

/-- A milestone: global index, index of the neighboring anchor across this
boundary, and the local alias index within the owning anchor. -/
structure Milestone where
  index : ℕ
  neighbor_anchor_index : ℕ
  alias_index : ℕ
deriving DecidableEq

/-- An anchor (Voronoi cell): model-wide index, bulk-state flag, and
bounding milestones. -/
structure Anchor where
  index : ℕ
  bulkstate : Bool
  milestones : List Milestone
deriving DecidableEq

/-- The anchor value `anchors[alpha]` (indices stay in range wherever the
analysis code subscripts, so the default is never observed there). -/
def anchorAt (anchors : List Anchor) (alpha : ℕ) : Anchor :=
  anchors.getD alpha ⟨0, false, []⟩

/-- `sum_pi_alpha_over_T_alpha`: the loop
`for alpha, anchor in enumerate(...): if bulk: continue;
acc += pi_alpha[alpha]/T_alpha[alpha]`. -/
def sum_pi_alpha_over_T_alpha (anchors : List Anchor)
    (pi_alpha T_alpha : ℕ → ℚ) : ℚ :=
  (List.range anchors.length).foldl
    (fun acc alpha =>
      if (anchorAt anchors alpha).bulkstate then acc
      else acc + pi_alpha alpha / T_alpha alpha) 0

/-- `self.T = sum_pi_alpha_over_T_alpha ** -1`.  (numpy yields `inf` when
the sum is zero; `ℚ` yields 0.  Both pass the `self.T >= 0` assert; the
claims below never exercise this degenerate case.) -/
def fill_out_T (anchors : List Anchor) (pi_alpha T_alpha : ℕ → ℚ) : ℚ :=
  (sum_pi_alpha_over_T_alpha anchors pi_alpha T_alpha)⁻¹

/-- One anchor's inner loop `for key in dict: out[key] += coeff * dict[key]`
over a `defaultdict` represented as a function accumulator. -/
def dictAccum {K : Type} [DecidableEq K] (f : K → ℚ) (coeff : ℚ)
    (d : List (K × ℚ)) : K → ℚ :=
  d.foldl (fun g kv => fun k => if k = kv.1 then g k + coeff * kv.2 else g k) f

/-- The accumulated `self.N_ij`: each non-bulk anchor contributes
`time_fraction * this_anchor_pi_alpha * N_i_j_alpha[key]` for every key of
its dict, where `time_fraction = self.T / T_alpha`. -/
def fill_out_N_ij (anchors : List Anchor) (pi_alpha T_alpha : ℕ → ℚ)
    (Ndicts : ℕ → List ((ℕ × ℕ) × ℚ)) : (ℕ × ℕ) → ℚ :=
  (List.range anchors.length).foldl
    (fun f alpha =>
      if (anchorAt anchors alpha).bulkstate then f
      else dictAccum f
        (fill_out_T anchors pi_alpha T_alpha / T_alpha alpha * pi_alpha alpha)
        (Ndicts alpha)) (fun _ => 0)

/-- The accumulated `self.R_i`, built the same way from `R_i_alpha`. -/
def fill_out_R_i (anchors : List Anchor) (pi_alpha T_alpha : ℕ → ℚ)
    (Rdicts : ℕ → List (ℕ × ℚ)) : ℕ → ℚ :=
  (List.range anchors.length).foldl
    (fun f alpha =>
      if (anchorAt anchors alpha).bulkstate then f
      else dictAccum f
        (fill_out_T anchors pi_alpha T_alpha / T_alpha alpha * pi_alpha alpha)
        (Rdicts alpha)) (fun _ => 0)

/-- All `assert`s of `fill_out_data_quantities`, in source order:
`self.T >= 0`; per non-bulk anchor `T_alpha >= 0`; per `N_i_j_alpha` key
`time_fraction > 0`, `this_anchor_pi_alpha >= 0`, value `> 0`; the
`R_i_alpha` dict must be non-empty (`raise` otherwise) with the same three
conditions per key.  The Python function returns normally iff every assert
it reaches passes; on the success path every one of these is reached. -/
def fill_out_checks (anchors : List Anchor) (pi_alpha T_alpha : ℕ → ℚ)
    (Ndicts : ℕ → List ((ℕ × ℕ) × ℚ)) (Rdicts : ℕ → List (ℕ × ℚ)) : Bool :=
  decide (0 ≤ fill_out_T anchors pi_alpha T_alpha) &&
  (List.range anchors.length).all (fun alpha =>
    (anchorAt anchors alpha).bulkstate ||
    (decide (0 ≤ T_alpha alpha) &&
     (Ndicts alpha).all (fun kv =>
       decide (0 < fill_out_T anchors pi_alpha T_alpha / T_alpha alpha) &&
       decide (0 ≤ pi_alpha alpha) && decide (0 < kv.2)) &&
     !(Rdicts alpha).isEmpty &&
     (Rdicts alpha).all (fun kv =>
       decide (0 < fill_out_T anchors pi_alpha T_alpha / T_alpha alpha) &&
       decide (0 ≤ pi_alpha alpha) && decide (0 < kv.2))))

/-- The result triple of `fill_out_data_quantities`. -/
structure FillOutResult where
  N_ij : (ℕ × ℕ) → ℚ
  R_i : ℕ → ℚ
  T : ℚ

/-- `MMVT_data_sample.fill_out_data_quantities`, given present statistics
(the leading `is None` guard is the caller's "statistics present"
precondition).  A failing assert raises, discarding the result. -/
def fill_out_data_quantities (anchors : List Anchor) (pi_alpha T_alpha : ℕ → ℚ)
    (Ndicts : ℕ → List ((ℕ × ℕ) × ℚ)) (Rdicts : ℕ → List (ℕ × ℚ)) :
    Except Unit FillOutResult :=
  if fill_out_checks anchors pi_alpha T_alpha Ndicts Rdicts then
    Except.ok
      ⟨fill_out_N_ij anchors pi_alpha T_alpha Ndicts,
       fill_out_R_i anchors pi_alpha T_alpha Rdicts,
       fill_out_T anchors pi_alpha T_alpha⟩
  else Except.error ()

/-! Helper lemmas relating the accumulation loops to closed-form sums. -/

theorem foldl_range_add (n : ℕ) (f : ℕ → ℚ) (a : ℚ) :
    (List.range n).foldl (fun acc i => acc + f i) a
      = a + ∑ i ∈ Finset.range n, f i := by
  induction n generalizing a with
  | zero => simp
  | succ n ih =>
    rw [List.range_succ, List.foldl_append, ih, Finset.sum_range_succ]
    simp [add_assoc]

theorem foldl_if_skip_eq_foldl_add (l : List ℕ) (b : ℕ → Bool) (g : ℕ → ℚ)
    (a : ℚ) :
    l.foldl (fun acc i => if b i then acc else acc + g i) a
      = l.foldl (fun acc i => acc + if b i then 0 else g i) a := by
  induction l generalizing a with
  | nil => rfl
  | cons x xs ih =>
    simp only [List.foldl_cons]
    cases hx : b x <;> simp [hx, ih]

/-- The total weight of the entries of `d` at key `k`. -/
def listValSum {K : Type} [DecidableEq K] (d : List (K × ℚ)) (k : K) : ℚ :=
  (d.map (fun kv => if kv.1 = k then kv.2 else 0)).sum

theorem listValSum_nil {K : Type} [DecidableEq K] (k : K) :
    listValSum ([] : List (K × ℚ)) k = 0 := rfl

theorem listValSum_cons {K : Type} [DecidableEq K] (kv : K × ℚ)
    (d : List (K × ℚ)) (k : K) :
    listValSum (kv :: d) k = (if kv.1 = k then kv.2 else 0) + listValSum d k := by
  simp [listValSum]

theorem listValSum_of_not_mem {K : Type} [DecidableEq K] (d : List (K × ℚ))
    (k : K) (h : k ∉ d.map Prod.fst) : listValSum d k = 0 := by
  induction d with
  | nil => rfl
  | cons kv t ih =>
    rw [listValSum_cons, ih (fun hmem => h (by simp [hmem]))]
    have : kv.1 ≠ k := fun he => h (by simp [he])
    rw [if_neg this, add_zero]

/-- With distinct keys, `listValSum` is dict lookup (absent keys ↦ 0). -/
theorem listValSum_eq_lookup {K : Type} [DecidableEq K] [BEq K] [LawfulBEq K]
    (d : List (K × ℚ)) (hnd : (d.map Prod.fst).Nodup) (k : K) :
    listValSum d k = ((d.lookup k).getD 0 : ℚ) := by
  induction d with
  | nil => rfl
  | cons kv t ih =>
    rw [listValSum_cons]
    simp only [List.map_cons, List.nodup_cons] at hnd
    by_cases hk : kv.1 = k
    · subst hk
      rw [listValSum_of_not_mem t kv.1 hnd.1]
      simp [List.lookup]
    · rw [if_neg hk, zero_add, ih hnd.2]
      have : (k == kv.1) = false := by
        simp [beq_iff_eq]
        exact fun he => hk he.symm
      simp [List.lookup, this]

theorem dictAccum_apply {K : Type} [DecidableEq K] (d : List (K × ℚ))
    (f : K → ℚ) (c : ℚ) (k : K) :
    dictAccum f c d k = f k + c * listValSum d k := by
  induction d generalizing f with
  | nil => simp [dictAccum, listValSum]
  | cons kv t ih =>
    rw [dictAccum, List.foldl_cons]
    have step : dictAccum (fun k => if k = kv.1 then f k + c * kv.2 else f k) c t k
        = (if k = kv.1 then f k + c * kv.2 else f k) + c * listValSum t k := ih _
    rw [show (List.foldl
        (fun g kv => fun k => if k = kv.1 then g k + c * kv.2 else g k)
        (fun k => if k = kv.1 then f k + c * kv.2 else f k) t) k
        = dictAccum (fun k => if k = kv.1 then f k + c * kv.2 else f k) c t k
        from rfl, step, listValSum_cons]
    by_cases hk : k = kv.1
    · have : kv.1 = k := hk.symm
      rw [if_pos hk, if_pos this]
      ring
    · have : kv.1 ≠ k := fun he => hk he.symm
      rw [if_neg hk, if_neg this]
      ring

theorem foldl_dictAccum_apply {K : Type} [DecidableEq K] (l : List ℕ)
    (b : ℕ → Bool) (c : ℕ → ℚ) (dd : ℕ → List (K × ℚ)) (f0 : K → ℚ) (k : K) :
    (l.foldl (fun f alpha =>
        if b alpha then f else dictAccum f (c alpha) (dd alpha)) f0) k
      = l.foldl (fun acc alpha =>
          acc + if b alpha then 0 else c alpha * listValSum (dd alpha) k)
          (f0 k) := by
  induction l generalizing f0 with
  | nil => rfl
  | cons x xs ih =>
    simp only [List.foldl_cons]
    rw [ih]
    congr 1
    cases hx : b x
    · simp [dictAccum_apply]
    · simp

/-- C3: on any data sample whose statistics pass the function's own
assertions, `fill_out_data_quantities` returns successfully and sets
`T = (Σ_{α non-bulk} pi_alpha[α]/T_alpha[α])⁻¹`, and each `N_ij[(i,j)]`
(resp. `R_i[i]`) to the sum over non-bulk anchors of
`T·pi_alpha[α]/T_alpha[α]` times that anchor's `N_i_j_alpha[(i,j)]`
(resp. `R_i_alpha[i]`), absent dict keys contributing 0. -/
theorem C3_fill_out_data_quantities (anchors : List Anchor)
    (pi_alpha T_alpha : ℕ → ℚ) (Ndicts : ℕ → List ((ℕ × ℕ) × ℚ))
    (Rdicts : ℕ → List (ℕ × ℚ))
    (hok : fill_out_checks anchors pi_alpha T_alpha Ndicts Rdicts = true)
    (hndN : ∀ alpha, ((Ndicts alpha).map Prod.fst).Nodup)
    (hndR : ∀ alpha, ((Rdicts alpha).map Prod.fst).Nodup) :
    fill_out_data_quantities anchors pi_alpha T_alpha Ndicts Rdicts
      = Except.ok
          ⟨fill_out_N_ij anchors pi_alpha T_alpha Ndicts,
           fill_out_R_i anchors pi_alpha T_alpha Rdicts,
           fill_out_T anchors pi_alpha T_alpha⟩
    ∧ fill_out_T anchors pi_alpha T_alpha
      = (∑ alpha ∈ Finset.range anchors.length,
          if (anchorAt anchors alpha).bulkstate then 0
          else pi_alpha alpha / T_alpha alpha)⁻¹
    ∧ (∀ key, fill_out_N_ij anchors pi_alpha T_alpha Ndicts key
        = ∑ alpha ∈ Finset.range anchors.length,
            if (anchorAt anchors alpha).bulkstate then 0
            else fill_out_T anchors pi_alpha T_alpha * pi_alpha alpha
              / T_alpha alpha * (((Ndicts alpha).lookup key).getD 0))
    ∧ (∀ key, fill_out_R_i anchors pi_alpha T_alpha Rdicts key
        = ∑ alpha ∈ Finset.range anchors.length,
            if (anchorAt anchors alpha).bulkstate then 0
            else fill_out_T anchors pi_alpha T_alpha * pi_alpha alpha
              / T_alpha alpha * (((Rdicts alpha).lookup key).getD 0)) := by
  refine ⟨by simp [fill_out_data_quantities, hok], ?_, ?_, ?_⟩
  · rw [fill_out_T, sum_pi_alpha_over_T_alpha,
      foldl_if_skip_eq_foldl_add _ (fun alpha => (anchorAt anchors alpha).bulkstate)
        (fun alpha => pi_alpha alpha / T_alpha alpha),
      foldl_range_add, zero_add]
  · intro key
    rw [fill_out_N_ij, foldl_dictAccum_apply, foldl_range_add, zero_add]
    refine Finset.sum_congr rfl (fun alpha _ => ?_)
    by_cases hb : (anchorAt anchors alpha).bulkstate
    · rw [if_pos hb, if_pos hb]
    · rw [if_neg hb, if_neg hb, listValSum_eq_lookup _ (hndN alpha),
        div_mul_eq_mul_div]
  · intro key
    rw [fill_out_R_i, foldl_dictAccum_apply, foldl_range_add, zero_add]
    refine Finset.sum_congr rfl (fun alpha _ => ?_)
    by_cases hb : (anchorAt anchors alpha).bulkstate
    · rw [if_pos hb, if_pos hb]
    · rw [if_neg hb, if_neg hb, listValSum_eq_lookup _ (hndR alpha),
        div_mul_eq_mul_div]

/-- Concrete two-anchor model (one non-bulk anchor, bulk anchor last) used
by the C3 witness. -/
def c3Anchors : List Anchor := [⟨0, false, []⟩, ⟨1, true, []⟩]

def c3Pi : ℕ → ℚ := fun alpha => if alpha = 0 then 1 else 0

def c3Talpha : ℕ → ℚ := fun _ => 2

def c3Ndicts : ℕ → List ((ℕ × ℕ) × ℚ) :=
  fun alpha => if alpha = 0 then [((0, 1), 2)] else []

def c3Rdicts : ℕ → List (ℕ × ℚ) :=
  fun alpha => if alpha = 0 then [(0, 3)] else []

/-- Witness for C3 at the concrete two-anchor model. -/
theorem C3_fill_out_data_quantities_witness :
    fill_out_T c3Anchors c3Pi c3Talpha
      = (∑ alpha ∈ Finset.range c3Anchors.length,
          if (anchorAt c3Anchors alpha).bulkstate then 0
          else c3Pi alpha / c3Talpha alpha)⁻¹ :=
  (C3_fill_out_data_quantities c3Anchors c3Pi c3Talpha c3Ndicts c3Rdicts
    (by norm_num [fill_out_checks, fill_out_T, sum_pi_alpha_over_T_alpha,
      anchorAt, c3Anchors, c3Pi, c3Talpha, c3Ndicts, c3Rdicts, List.range_succ,
      List.getD])
    (by intro alpha; by_cases h : alpha = 0 <;> simp [c3Ndicts, h])
    (by intro alpha; by_cases h : alpha = 0 <;> simp [c3Rdicts, h])).2.1

/-- C7 (code bug evidence): at the failing input `num = 1` with the default
`skip = 10·N²`, `stride = N²` for `N = 1`, the MCMC loop retains zero
samples, yet the flag standing for `new_data_sample is not None` is `true`,
so the final assertion passes and no fatal error is raised. -/
theorem C7_zero_samples_no_fatal_error :
    (monte_carlo_retained 1 (10 * 1 ^ 2) (1 ^ 2)).1 = 0
    ∧ (monte_carlo_retained 1 (10 * 1 ^ 2) (1 ^ 2)).2 = true := by
  constructor
  · decide
  · decide

/-! ## The event-log reader `openmm_read_output_file_list`
(mmvt_analyze.py lines 74-249) and the anchor-statistics accumulator
`MMVT_anchor_statistics.read_output_file_list` (lines 612-662)

File I/O and line splitting are external: a file is modelled as its list of
parsed data records (comment/blank lines already stripped).  The embedding
covers file lists without `swarm` in their names, so no `NEW_SWARM` markers
occur (the claims below all concern this, the ordinary, logging layout).
`assert` failures and the `IndexError` raised by `file_lines[-1]` on an
emptied list become `Except.error`/`none`. -/

/-- One parsed data line: `dest_boundary, bounce_index, dest_time`. -/
structure EventRec where
  dest_boundary : ℤ
  bounce_index : ℤ
  dest_time : ℚ
deriving DecidableEq

/-- `MAX_ITER = 1000000000`. -/
def MAX_ITER : ℕ := 1000000000

/-- The `1e99` sentinel used as `next_start_time` for the last file. -/
def BIG_TIME : ℚ := 10 ^ 99

/-- The restart-backup deletion loop
`while float(file_lines[-1][2]) > next_start_time: file_lines.pop(); ...`,
operating here on the reversed line list.  After each pop Python touches
`file_lines[-1]` (the `NEW_SWARM` check), which raises `IndexError` when
the list has just been emptied (`none` here); popping stops early, keeping
the rest, once `counter > MAX_ITER`. -/
def restartPopLoop (next_start_time : ℚ) : ℕ → List EventRec → Option (List EventRec)
  | _, [] => none
  | counter, x :: rest =>
    if next_start_time < x.dest_time then
      match rest with
      | [] => none
      | _ :: _ =>
        if MAX_ITER < counter then some rest
        else restartPopLoop next_start_time (counter + 1) rest
    else some (x :: rest)

/-- Truncation of one (non-empty) file's lines against the next file's
start time. -/
def truncate_file (file_lines : List EventRec) (next_start_time : ℚ) :
    Option (List EventRec) :=
  (restartPopLoop next_start_time 0 file_lines.reverse).map List.reverse

/-- `next_start_time`: the first event time of the following (non-empty)
file, or the `1e99` sentinel for the last file. -/
def next_start_time (rest : List (List EventRec)) : ℚ :=
  match rest with
  | [] => BIG_TIME
  | g :: _ => (g.headD ⟨0, 0, 0⟩).dest_time

/-- The restart-check concatenation: truncate each file against the next
file's start time, then concatenate (`lines += file_lines`). -/
def restart_merge : List (List EventRec) → Option (List EventRec)
  | [] => some []
  | f :: rest => do
    let t ← truncate_file f (next_start_time rest)
    let ts ← restart_merge rest
    pure (t ++ ts)

/-- The line-collection phase for `existing_lines is None`: files that
produced no data lines are dropped (`if len(file_lines) == 0: continue`);
with the restart check the per-file truncation runs, otherwise the raw
lines are concatenated. -/
def read_lines_phase (output_file_list : List (List EventRec))
    (skip_restart_check : Bool) : Option (List EventRec) :=
  if skip_restart_check then
    some ((output_file_list.filter (fun f => !f.isEmpty)).flatten)
  else
    restart_merge (output_file_list.filter (fun f => !f.isEmpty))

/-- `defaultdict(int)` increment, preserving Python dict insertion order. -/
def incrAssoc {K : Type} [DecidableEq K] : List (K × ℕ) → K → List (K × ℕ)
  | [], k => [(k, 1)]
  | kv :: t, k => if kv.1 = k then (kv.1, kv.2 + 1) :: t else kv :: incrAssoc t k

/-- `defaultdict(list)` append, preserving Python dict insertion order. -/
def appendAssoc {K : Type} [DecidableEq K] :
    List (K × List ℚ) → K → ℚ → List (K × List ℚ)
  | [], k, v => [(k, [v])]
  | kv :: t, k, v =>
    if kv.1 = k then (kv.1, kv.2 ++ [v]) :: t else kv :: appendAssoc t k v

/-- Mutable state of the statistics loop over `lines`. -/
structure ReaderLoopState where
  N_i_j_alpha : List ((ℤ × ℤ) × ℕ)
  R_i_alpha_list : List (ℤ × List ℚ)
  N_alpha_beta : List (ℤ × ℕ)
  T_alpha_list : List ℚ
  last_bounce_time : ℚ
  src_boundary : Option ℤ
  src_time : ℚ
deriving DecidableEq

/-- `last_bounce_time = -1.0; src_boundary = None; src_time = None`
(`src_time` is only ever read after `src_boundary` is set, so its
placeholder 0 is never observed). -/
def initialReaderLoopState : ReaderLoopState :=
  ⟨[], [], [], [], -1, none, 0⟩

def belowMinTime (min_time : Option ℚ) (t : ℚ) : Bool :=
  match min_time with
  | none => false
  | some m => decide (t < m)

def aboveMaxTime (max_time : Option ℚ) (t : ℚ) : Bool :=
  match max_time with
  | none => false
  | some M => decide (M < t)

/-- The `src_boundary != dest_boundary` branch (lines 202-212): count one
transition, record one incubation time `dest_time - src_time`, and move the
source to the new boundary.  `last_bounce_time` is untouched here. -/
def transitionStep (src : ℤ) (line : EventRec) (st : ReaderLoopState) :
    ReaderLoopState :=
  if src ≠ line.dest_boundary then
    { st with
      N_i_j_alpha := incrAssoc st.N_i_j_alpha (src, line.dest_boundary),
      R_i_alpha_list :=
        appendAssoc st.R_i_alpha_list src (line.dest_time - st.src_time),
      src_boundary := some line.dest_boundary,
      src_time := line.dest_time }
  else st

/-- The unconditional per-record bookkeeping (lines 214-226): bounce count,
inter-bounce time sample, and the new `last_bounce_time`. -/
def bounceStep (line : EventRec) (st : ReaderLoopState) : ReaderLoopState :=
  { st with
    N_alpha_beta := incrAssoc st.N_alpha_beta line.dest_boundary,
    T_alpha_list := st.T_alpha_list ++ [line.dest_time - st.last_bounce_time],
    last_bounce_time := line.dest_time }

/-- The per-record statistics loop (lines 171-226).  The incubation-time
assert is guarded by `if not skip_restart_check`; the inter-bounce assert
`dest_time - last_bounce_time >= 0.0` is unconditional. -/
def reader_loop (skip_restart_check : Bool) (min_time max_time : Option ℚ) :
    List EventRec → ReaderLoopState → Except Unit ReaderLoopState
  | [], st => Except.ok st
  | line :: rest, st =>
    if belowMinTime min_time line.dest_time then
      reader_loop skip_restart_check min_time max_time rest st
    else if aboveMaxTime max_time line.dest_time then
      Except.ok st
    else
      match st.src_boundary with
      | none =>
        reader_loop skip_restart_check min_time max_time rest
          { st with src_boundary := some line.dest_boundary,
                    src_time := line.dest_time,
                    last_bounce_time := line.dest_time }
      | some src =>
        if src ≠ line.dest_boundary ∧ skip_restart_check = false
            ∧ line.dest_time - st.src_time < 0 then
          Except.error ()
        else if line.dest_time
            - (transitionStep src line st).last_bounce_time < 0 then
          Except.error ()
        else
          reader_loop skip_restart_check min_time max_time rest
            (bounceStep line (transitionStep src line st))

/-- The statistics returned by the reader.  Standard deviations are not
modelled (they involve square roots; no claim mentions them), and
dictionary keys of the `R_i` family are `Option ℤ` because the
no-transitions fallback writes the possibly-`None` `src_boundary` as key.
`np.mean` of an empty list is `nan` in numpy; here `0/0 = 0` (no claim
exercises that case). -/
structure ReaderOutput where
  N_i_j_alpha : List ((ℤ × ℤ) × ℕ)
  R_i_alpha_list : List (Option ℤ × List ℚ)
  R_i_alpha_average : List (Option ℤ × ℚ)
  R_i_alpha_total : List (Option ℤ × ℚ)
  N_alpha_beta : List (ℤ × ℕ)
  T_alpha_list : List ℚ
  T_alpha_average : ℚ
  T_alpha_total : ℚ
deriving DecidableEq

/-- Post-loop reduction (lines 228-249): per-key averages/totals, the
`T_alpha` aggregates, and the fallback assigning the `T_alpha` statistics
to the single touched milestone when no transition was recorded. -/
def reader_finalize (st : ReaderLoopState) : ReaderOutput :=
  if st.R_i_alpha_list.isEmpty then
    { N_i_j_alpha := st.N_i_j_alpha
      R_i_alpha_list := [(st.src_boundary, st.T_alpha_list)]
      R_i_alpha_average :=
        [(st.src_boundary, st.T_alpha_list.sum / (st.T_alpha_list.length : ℚ))]
      R_i_alpha_total := [(st.src_boundary, st.T_alpha_list.sum)]
      N_alpha_beta := st.N_alpha_beta
      T_alpha_list := st.T_alpha_list
      T_alpha_average := st.T_alpha_list.sum / (st.T_alpha_list.length : ℚ)
      T_alpha_total := st.T_alpha_list.sum }
  else
    { N_i_j_alpha := st.N_i_j_alpha
      R_i_alpha_list := st.R_i_alpha_list.map (fun kv => (some kv.1, kv.2))
      R_i_alpha_average :=
        st.R_i_alpha_list.map (fun kv => (some kv.1, kv.2.sum / (kv.2.length : ℚ)))
      R_i_alpha_total := st.R_i_alpha_list.map (fun kv => (some kv.1, kv.2.sum))
      N_alpha_beta := st.N_alpha_beta
      T_alpha_list := st.T_alpha_list
      T_alpha_average := st.T_alpha_list.sum / (st.T_alpha_list.length : ℚ)
      T_alpha_total := st.T_alpha_list.sum }

/-- Statistics phase on a fixed line list. -/
def reader_stats (min_time max_time : Option ℚ) (skip_restart_check : Bool)
    (lines : List EventRec) : Except Unit (ReaderOutput × List EventRec) :=
  match reader_loop skip_restart_check min_time max_time lines
      initialReaderLoopState with
  | Except.error e => Except.error e
  | Except.ok st => Except.ok (reader_finalize st, lines)

/-- `openmm_read_output_file_list`: with `existing_lines` present the file
list is not read at all (`lines = existing_lines`); otherwise the files are
read, truncated and concatenated, and the statistics loop runs over the
merged lines, which are also returned for caching. -/
def openmm_read_output_file_list (output_file_list : List (List EventRec))
    (min_time max_time : Option ℚ) (existing_lines : Option (List EventRec))
    (skip_restart_check : Bool) : Except Unit (ReaderOutput × List EventRec) :=
  match existing_lines with
  | some ls => reader_stats min_time max_time skip_restart_check ls
  | none =>
    match read_lines_phase output_file_list skip_restart_check with
    | none => Except.error ()
    | some ls => reader_stats min_time max_time skip_restart_check ls

/-- Python dict assignment `d[k] = v`: replaces in place, appends new keys. -/
def setAssoc {K : Type} [DecidableEq K] : List (K × ℚ) → K → ℚ → List (K × ℚ)
  | [], k, v => [(k, v)]
  | kv :: t, k, v => if kv.1 = k then (kv.1, v) :: t else kv :: setAssoc t k v

/-- The mutable fields of `MMVT_anchor_statistics` the claims mention:
the stored statistics, the persistent `k_alpha_beta` dict, and the cached
`existing_lines`. -/
structure MMVT_anchor_statistics where
  stats : Option ReaderOutput
  k_alpha_beta : List (ℤ × ℚ)
  existing_lines : Option (List EventRec)
deriving DecidableEq

/-- `__init__`: no statistics, empty `k_alpha_beta`, no cached lines. -/
def initial_anchor_statistics : MMVT_anchor_statistics := ⟨none, [], none⟩

/-- `MMVT_anchor_statistics.read_output_file_list` for `engine == "openmm"`
(the claims' engine): calls the reader with the cached `self.existing_lines`
(and the default `skip_restart_check=False`), overwrites the statistics
fields, sets `k_alpha_beta[key] = N_alpha_beta[key]/T_alpha_total` for each
key of the new `N_alpha_beta`, then asserts `T_alpha_total >= 0`. -/
def anchor_read_output_file_list (st : MMVT_anchor_statistics)
    (output_file_list : List (List EventRec)) (min_time max_time : Option ℚ) :
    Except Unit MMVT_anchor_statistics :=
  match openmm_read_output_file_list output_file_list min_time max_time
      st.existing_lines false with
  | Except.error e => Except.error e
  | Except.ok (out, ls) =>
    if out.T_alpha_total < 0 then Except.error ()
    else
      Except.ok
        ⟨some out,
         out.N_alpha_beta.foldl
           (fun d kv => setAssoc d kv.1 ((kv.2 : ℚ) / out.T_alpha_total))
           st.k_alpha_beta,
         some ls⟩

/-! ## Claim C9: incremental re-reading with new data -/

/-- C9 (counterexample evidence, amended behavior): when `existing_lines`
is supplied, `openmm_read_output_file_list` never consults the file list at
all — the cached records are reused without re-parsing, but newly arrived
records are NOT merged: any two file lists give the identical result, which
is the statistics of the cached lines alone. -/
theorem C9_cached_lines_ignore_file_list (files1 files2 : List (List EventRec))
    (min_time max_time : Option ℚ) (skip_restart_check : Bool)
    (ls : List EventRec) :
    openmm_read_output_file_list files1 min_time max_time (some ls)
        skip_restart_check
      = openmm_read_output_file_list files2 min_time max_time (some ls)
          skip_restart_check
    ∧ openmm_read_output_file_list files1 min_time max_time (some ls)
        skip_restart_check
      = reader_stats min_time max_time skip_restart_check ls :=
  ⟨rfl, rfl⟩

/-- First log file for the C9 counterexample. -/
def c9file1 : List EventRec := [⟨0, 0, 1⟩, ⟨0, 1, 2⟩]

/-- Newly arrived second log file for the C9 counterexample. -/
def c9file2 : List EventRec := [⟨0, 2, 3⟩]

/-- C9 counterexample: after a first read of `[c9file1]` cached its lines
(= `c9file1`), re-invoking the reader on the grown list `[c9file1, c9file2]`
with the cached lines does NOT equal a full read of all the data: the new
file's record is ignored (the bounce count `N_alpha_beta[0]` stays 1 instead
of 2). -/
theorem C9_counterexample :
    (openmm_read_output_file_list [c9file1] none none none false).map
        (fun r => r.2) = Except.ok c9file1
    ∧ openmm_read_output_file_list [c9file1, c9file2] none none
        (some c9file1) false
      ≠ openmm_read_output_file_list [c9file1, c9file2] none none none false := by
  constructor
  · norm_num [openmm_read_output_file_list, read_lines_phase, restart_merge,
      truncate_file, restartPopLoop, next_start_time, BIG_TIME, MAX_ITER,
      reader_stats, reader_loop, transitionStep, bounceStep,
      reader_finalize, initialReaderLoopState,
      belowMinTime, aboveMaxTime, incrAssoc, appendAssoc, c9file1,
      List.filter, Except.map]
  · norm_num [openmm_read_output_file_list, read_lines_phase, restart_merge,
      truncate_file, restartPopLoop, next_start_time, BIG_TIME, MAX_ITER,
      reader_stats, reader_loop, transitionStep, bounceStep,
      reader_finalize, initialReaderLoopState,
      belowMinTime, aboveMaxTime, incrAssoc, appendAssoc, c9file1, c9file2,
      List.filter]

/-! ## Claim C4: restart truncation and monotonicity of the merged lines -/

/-- First log file for the C4 counterexample: an out-of-order event at
time 9 hidden before a small trailing event at time 2. -/
def c4file1 : List EventRec := [⟨0, 0, 1⟩, ⟨0, 1, 9⟩, ⟨0, 2, 2⟩]

/-- Second log file for the C4 counterexample, restarting at time 5. -/
def c4file2 : List EventRec := [⟨0, 3, 5⟩, ⟨0, 4, 6⟩]

/-- C4 counterexample: with the restart check enabled and the second file
restarting at time 5 (earlier than the previous file's event at time 9),
the merged line list keeps the previous file unchanged — the pop loop only
inspects the LAST line (time 2 ≤ 5) — so the event at time 9, which is at
(indeed after) the restart point, is NOT discarded, and the merged
timestamps are not monotonically increasing. -/
theorem C4_counterexample :
    read_lines_phase [c4file1, c4file2] false = some (c4file1 ++ c4file2)
    ∧ next_start_time [c4file2] = 5
    ∧ (⟨0, 1, 9⟩ : EventRec) ∈ c4file1 ++ c4file2
    ∧ ¬ List.Pairwise (fun a b : EventRec => a.dest_time ≤ b.dest_time)
        (c4file1 ++ c4file2) := by
  refine ⟨?_, ?_, ?_, ?_⟩
  · norm_num [read_lines_phase, restart_merge, truncate_file, restartPopLoop,
      next_start_time, BIG_TIME, MAX_ITER, c4file1, c4file2, List.filter]
  · norm_num [next_start_time, c4file1, c4file2]
  · simp [c4file1, c4file2]
  · intro h
    norm_num [c4file1, c4file2, List.pairwise_cons] at h

/-! ## Claim C5: the two negative-interval assertions -/

theorem appendAssoc_forall {K : Type} [DecidableEq K] (P : ℚ → Prop)
    (d : List (K × List ℚ)) (k : K) (v : ℚ)
    (hd : ∀ kv ∈ d, ∀ x ∈ kv.2, P x) (hv : P v) :
    ∀ kv ∈ appendAssoc d k v, ∀ x ∈ kv.2, P x := by
  induction d with
  | nil =>
    intro kv hkv x hx
    rw [appendAssoc] at hkv
    rcases List.mem_singleton.mp hkv with rfl
    rcases List.mem_singleton.mp hx with rfl
    exact hv
  | cons kv0 t ih =>
    intro kv hkv x hx
    rw [appendAssoc] at hkv
    by_cases hk : kv0.1 = k
    · rw [if_pos hk] at hkv
      rcases List.mem_cons.mp hkv with rfl | hmem
      · rcases List.mem_append.mp hx with hx1 | hx2
        · exact hd kv0 (List.mem_cons_self _ _) x hx1
        · rcases List.mem_singleton.mp hx2 with rfl
          exact hv
      · exact hd kv (List.mem_cons_of_mem _ hmem) x hx
    · rw [if_neg hk] at hkv
      rcases List.mem_cons.mp hkv with rfl | hmem
      · exact hd kv (List.mem_cons_self _ _) x hx
      · exact ih (fun kv h => hd kv (List.mem_cons_of_mem _ h)) kv hmem x hx

theorem transitionStep_last_bounce (src : ℤ) (line : EventRec)
    (st : ReaderLoopState) :
    (transitionStep src line st).last_bounce_time = st.last_bounce_time := by
  rw [transitionStep]
  split <;> rfl

theorem transitionStep_T_alpha (src : ℤ) (line : EventRec)
    (st : ReaderLoopState) :
    (transitionStep src line st).T_alpha_list = st.T_alpha_list := by
  rw [transitionStep]
  split <;> rfl

/-- The loop invariant behind C5: all recorded inter-bounce and incubation
intervals are non-negative, and the current source time never exceeds the
last bounce time. -/
def readerLoopInv (st : ReaderLoopState) : Prop :=
  (∀ x ∈ st.T_alpha_list, 0 ≤ x)
  ∧ (∀ kv ∈ st.R_i_alpha_list, ∀ x ∈ kv.2, 0 ≤ x)
  ∧ (st.src_boundary ≠ none → st.src_time ≤ st.last_bounce_time)

theorem reader_loop_inv (skipRC : Bool) (mt Mt : Option ℚ) :
    ∀ (lines : List EventRec) (st st' : ReaderLoopState),
    readerLoopInv st →
    reader_loop skipRC mt Mt lines st = Except.ok st' → readerLoopInv st' := by
  intro lines
  induction lines with
  | nil =>
    intro st st' hInv h
    rw [reader_loop] at h
    exact (Except.ok.inj h) ▸ hInv
  | cons line rest ih =>
    intro st st' hInv h
    rw [reader_loop] at h
    by_cases hmin : belowMinTime mt line.dest_time
    · rw [if_pos hmin] at h
      exact ih st st' hInv h
    · rw [if_neg hmin] at h
      by_cases hmax : aboveMaxTime Mt line.dest_time
      · rw [if_pos hmax] at h
        exact (Except.ok.inj h) ▸ hInv
      · rw [if_neg hmax] at h
        cases hsrc : st.src_boundary with
        | none =>
          simp only [hsrc] at h
          refine ih _ st' ?_ h
          refine ⟨hInv.1, hInv.2.1, fun _ => ?_⟩
          show line.dest_time ≤ line.dest_time
          exact le_refl _
        | some src =>
          simp only [hsrc] at h
          by_cases hc1 : src ≠ line.dest_boundary ∧ skipRC = false
              ∧ line.dest_time - st.src_time < 0
          · rw [if_pos hc1] at h
            exact absurd h (by simp)
          · rw [if_neg hc1] at h
            by_cases hc2 : line.dest_time
                - (transitionStep src line st).last_bounce_time < 0
            · rw [if_pos hc2] at h
              exact absurd h (by simp)
            · rw [if_neg hc2] at h
              rw [transitionStep_last_bounce] at hc2
              have hlb : st.last_bounce_time ≤ line.dest_time := by linarith
              have hsrcle : st.src_time ≤ st.last_bounce_time :=
                hInv.2.2 (by rw [hsrc]; exact Option.some_ne_none src)
              refine ih _ st' ?_ h
              have hTnew : ∀ x ∈ (bounceStep line
                  (transitionStep src line st)).T_alpha_list, 0 ≤ x := by
                intro x hx
                simp only [bounceStep, transitionStep_T_alpha,
                  transitionStep_last_bounce] at hx
                rcases List.mem_append.mp hx with hx1 | hx2
                · exact hInv.1 x hx1
                · have hxeq : x = line.dest_time - st.last_bounce_time :=
                    List.mem_singleton.mp hx2
                  rw [hxeq]
                  linarith
              have hRnew : ∀ kv ∈ (bounceStep line
                  (transitionStep src line st)).R_i_alpha_list,
                  ∀ x ∈ kv.2, 0 ≤ x := by
                intro kv hkv
                simp only [bounceStep] at hkv
                by_cases hne : src ≠ line.dest_boundary
                · simp only [transitionStep, if_pos hne] at hkv
                  exact appendAssoc_forall _ _ _ _ hInv.2.1 (by linarith)
                    kv hkv
                · simp only [transitionStep, if_neg hne] at hkv
                  exact hInv.2.1 kv hkv
              have hsrcnew : (bounceStep line
                  (transitionStep src line st)).src_boundary ≠ none →
                  (bounceStep line (transitionStep src line st)).src_time
                    ≤ (bounceStep line
                        (transitionStep src line st)).last_bounce_time := by
                intro _
                simp only [bounceStep]
                by_cases hne : src ≠ line.dest_boundary
                · simp only [transitionStep, if_pos hne]
                  exact le_refl _
                · simp only [transitionStep, if_neg hne]
                  show st.src_time ≤ line.dest_time
                  linarith
              exact ⟨hTnew, hRnew, hsrcnew⟩

/-- C5 (amended): a successful read implies every recorded inter-bounce
interval (`T_alpha_list`) and every recorded incubation interval
(`R_i_alpha_list` values) is non-negative, REGARDLESS of
`skip_restart_check` — only the incubation assertion is suppressed by the
opt-out; the inter-bounce assertion is unconditional and, combined with the
loop's bookkeeping, forces incubation times non-negative on success too. -/
theorem C5_reader_success_intervals_nonneg (output_file_list : List (List EventRec))
    (min_time max_time : Option ℚ) (existing_lines : Option (List EventRec))
    (skip_restart_check : Bool) (out : ReaderOutput) (ls : List EventRec)
    (h : openmm_read_output_file_list output_file_list min_time max_time
        existing_lines skip_restart_check = Except.ok (out, ls)) :
    (∀ x ∈ out.T_alpha_list, 0 ≤ x)
    ∧ (∀ kv ∈ out.R_i_alpha_list, ∀ x ∈ kv.2, 0 ≤ x) := by
  have hstats : ∃ ls0, reader_stats min_time max_time skip_restart_check ls0
      = Except.ok (out, ls) := by
    rw [openmm_read_output_file_list.eq_def] at h
    cases hex : existing_lines with
    | some ls0 =>
      simp only [hex] at h
      exact ⟨ls0, h⟩
    | none =>
      simp only [hex] at h
      cases hrl : read_lines_phase output_file_list skip_restart_check with
      | none =>
        simp only [hrl] at h
        exact absurd h (by simp)
      | some ls0 =>
        simp only [hrl] at h
        exact ⟨ls0, h⟩
  rcases hstats with ⟨ls0, hst⟩
  rw [reader_stats] at hst
  cases hloop : reader_loop skip_restart_check min_time max_time ls0
      initialReaderLoopState with
  | error e =>
    simp only [hloop] at hst
    exact absurd hst (by simp)
  | ok stf =>
    simp only [hloop] at hst
    have hout : reader_finalize stf = out := by
      have hpair := Except.ok.inj hst
      exact congrArg Prod.fst hpair
    have hInv : readerLoopInv stf :=
      reader_loop_inv skip_restart_check min_time max_time ls0
        initialReaderLoopState stf
        ⟨by simp [initialReaderLoopState],
         by simp [initialReaderLoopState],
         by simp [initialReaderLoopState]⟩ hloop
    rw [← hout, reader_finalize]
    by_cases hemp : stf.R_i_alpha_list.isEmpty
    · rw [if_pos hemp]
      refine ⟨hInv.1, ?_⟩
      intro kv hkv x hx
      rcases List.mem_singleton.mp hkv with rfl
      exact hInv.1 x hx
    · rw [if_neg hemp]
      refine ⟨hInv.1, ?_⟩
      intro kv hkv x hx
      rcases List.mem_map.mp hkv with ⟨kv0, hkv0, rfl⟩
      exact hInv.2.1 kv0 hkv0 x hx

/-- C5 counterexample: with `skip_restart_check=True` (the claimed opt-out)
the reader still raises: two bounces at the same boundary with decreasing
times (5 then 3) trip the unconditional inter-bounce assertion. -/
theorem C5_counterexample :
    openmm_read_output_file_list [[⟨0, 0, 5⟩, ⟨0, 1, 3⟩]] none none none true
      = Except.error () := by
  norm_num [openmm_read_output_file_list, read_lines_phase, reader_stats,
    reader_loop, transitionStep, bounceStep, initialReaderLoopState,
    belowMinTime, aboveMaxTime, List.filter]

/-- Witness for the amended C5 at a successful concrete read. -/
theorem C5_reader_success_intervals_nonneg_witness :
    (∀ x ∈ (⟨[((0, 1), 1)], [(some 0, [2])], [(some 0, 2)], [(some 0, 2)],
        [(1, 1)], [2], 2, 2⟩ : ReaderOutput).T_alpha_list, 0 ≤ x)
    ∧ (∀ kv ∈ (⟨[((0, 1), 1)], [(some 0, [2])], [(some 0, 2)], [(some 0, 2)],
        [(1, 1)], [2], 2, 2⟩ : ReaderOutput).R_i_alpha_list,
        ∀ x ∈ kv.2, 0 ≤ x) :=
  C5_reader_success_intervals_nonneg [[⟨0, 0, 1⟩, ⟨1, 1, 3⟩]] none none none
    false
    ⟨[((0, 1), 1)], [(some 0, [2])], [(some 0, 2)], [(some 0, 2)],
      [(1, 1)], [2], 2, 2⟩
    [⟨0, 0, 1⟩, ⟨1, 1, 3⟩]
    (by norm_num [openmm_read_output_file_list, read_lines_phase,
      restart_merge, truncate_file, restartPopLoop, next_start_time,
      BIG_TIME, MAX_ITER, reader_stats, reader_loop, transitionStep,
      bounceStep, reader_finalize, initialReaderLoopState, belowMinTime,
      aboveMaxTime, incrAssoc, appendAssoc, List.filter])

/-! ## Claim C8: idempotence of re-reading with no new data -/

theorem setAssoc_lookup_ne {K : Type} [DecidableEq K] [BEq K] [LawfulBEq K]
    (d : List (K × ℚ)) (k : K) (v : ℚ) (x : K) (hx : x ≠ k) :
    (setAssoc d k v).lookup x = d.lookup x := by
  induction d with
  | nil =>
    have hne : (x == k) = false := beq_eq_false_iff_ne.mpr hx
    simp [setAssoc, List.lookup, hne]
  | cons kv t ih =>
    obtain ⟨k1, v1⟩ := kv
    rw [setAssoc]
    by_cases hk : k1 = k
    · rw [if_pos hk]
      subst hk
      have hne : (x == k1) = false := beq_eq_false_iff_ne.mpr hx
      simp [List.lookup, hne]
    · rw [if_neg hk]
      simp only [List.lookup]
      cases hxk : x == k1
      · exact ih
      · rfl

theorem setAssoc_stable {K : Type} [DecidableEq K] [BEq K] [LawfulBEq K]
    (d : List (K × ℚ)) (k : K) (v : ℚ) (h : d.lookup k = some v) :
    setAssoc d k v = d := by
  induction d with
  | nil => simp [List.lookup] at h
  | cons kv t ih =>
    obtain ⟨k1, v1⟩ := kv
    rw [setAssoc]
    by_cases hk : k1 = k
    · rw [if_pos hk]
      subst hk
      simp only [List.lookup, beq_self_eq_true] at h
      have hv : v1 = v := Option.some.inj h
      rw [← hv]
    · rw [if_neg hk]
      have hne : (k == k1) = false := by
        simp [beq_iff_eq]
        exact fun he => hk he.symm
      simp only [List.lookup, hne] at h
      rw [ih h]

theorem lookup_foldl_set_notmem {K : Type} [DecidableEq K] [BEq K] [LawfulBEq K]
    (us : List (K × ℚ)) (d : List (K × ℚ)) (k : K)
    (h : k ∉ us.map Prod.fst) :
    (us.foldl (fun d kv => setAssoc d kv.1 kv.2) d).lookup k = d.lookup k := by
  induction us generalizing d with
  | nil => rfl
  | cons kv t ih =>
    rw [List.foldl_cons]
    have hk : k ≠ kv.1 := by
      intro he
      exact h (by simp [he])
    rw [ih _ (fun hmem => h (by simp at hmem ⊢; exact Or.inr hmem)),
      setAssoc_lookup_ne _ _ _ _ hk]

theorem setAssoc_lookup_self {K : Type} [DecidableEq K] [BEq K] [LawfulBEq K]
    (d : List (K × ℚ)) (k : K) (v : ℚ) :
    (setAssoc d k v).lookup k = some v := by
  induction d with
  | nil => simp [setAssoc, List.lookup]
  | cons kv t ih =>
    obtain ⟨k1, v1⟩ := kv
    rw [setAssoc]
    by_cases hk : k1 = k
    · rw [if_pos hk]
      subst hk
      simp [List.lookup]
    · rw [if_neg hk]
      have hne : (k == k1) = false := by
        simp [beq_iff_eq]
        exact fun he => hk he.symm
      simp [List.lookup, hne, ih]

theorem lookup_foldl_set_self {K : Type} [DecidableEq K] [BEq K] [LawfulBEq K]
    (us : List (K × ℚ)) (d : List (K × ℚ)) (k : K) (v : ℚ)
    (hnd : (us.map Prod.fst).Nodup) (hmem : (k, v) ∈ us) :
    (us.foldl (fun d kv => setAssoc d kv.1 kv.2) d).lookup k = some v := by
  induction us generalizing d with
  | nil => exact absurd hmem (List.not_mem_nil _)
  | cons kv t ih =>
    rw [List.foldl_cons]
    simp only [List.map_cons, List.nodup_cons] at hnd
    rcases List.mem_cons.mp hmem with rfl | hmem2
    · rw [lookup_foldl_set_notmem t _ k hnd.1, setAssoc_lookup_self]
    · exact ih _ hnd.2 hmem2

theorem foldl_set_stable {K : Type} [DecidableEq K] [BEq K] [LawfulBEq K]
    (us : List (K × ℚ)) (d : List (K × ℚ))
    (h : ∀ kv ∈ us, d.lookup kv.1 = some kv.2) :
    us.foldl (fun d kv => setAssoc d kv.1 kv.2) d = d := by
  induction us with
  | nil => rfl
  | cons kv t ih =>
    rw [List.foldl_cons, setAssoc_stable _ _ _ (h kv (List.mem_cons_self _ _))]
    exact ih (fun kv2 hm => h kv2 (List.mem_cons_of_mem _ hm))

/-- Setting the same (distinct-keyed) key/value sequence a second time does
not change the dict. -/
theorem foldl_set_idem {K : Type} [DecidableEq K] [BEq K] [LawfulBEq K]
    (us : List (K × ℚ)) (d : List (K × ℚ))
    (hnd : (us.map Prod.fst).Nodup) :
    us.foldl (fun d kv => setAssoc d kv.1 kv.2)
        (us.foldl (fun d kv => setAssoc d kv.1 kv.2) d)
      = us.foldl (fun d kv => setAssoc d kv.1 kv.2) d :=
  foldl_set_stable us _
    (fun kv hm => lookup_foldl_set_self us d kv.1 kv.2 hnd hm)

theorem incrAssoc_keys_mem {K : Type} [DecidableEq K]
    (d : List (K × ℕ)) (k x : K)
    (hx : x ∈ (incrAssoc d k).map Prod.fst) :
    x ∈ d.map Prod.fst ∨ x = k := by
  induction d with
  | nil =>
    rw [incrAssoc] at hx
    simp at hx
    exact Or.inr hx
  | cons kv t ih =>
    rw [incrAssoc] at hx
    by_cases hk : kv.1 = k
    · rw [if_pos hk] at hx
      simp at hx ⊢
      rcases hx with rfl | hx2
      · exact Or.inl (Or.inl rfl)
      · exact Or.inl (Or.inr hx2)
    · rw [if_neg hk] at hx
      simp at hx ⊢
      rcases hx with rfl | hx2
      · exact Or.inl (Or.inl rfl)
      · rcases ih (by simpa using hx2) with hmem | rfl
        · exact Or.inl (Or.inr (by simpa using hmem))
        · exact Or.inr rfl

theorem incrAssoc_keys_nodup {K : Type} [DecidableEq K]
    (d : List (K × ℕ)) (k : K) (h : (d.map Prod.fst).Nodup) :
    ((incrAssoc d k).map Prod.fst).Nodup := by
  induction d with
  | nil =>
    rw [incrAssoc]
    simp
  | cons kv t ih =>
    rw [incrAssoc]
    simp only [List.map_cons, List.nodup_cons] at h
    by_cases hk : kv.1 = k
    · rw [if_pos hk]
      simp only [List.map_cons, List.nodup_cons]
      exact h
    · rw [if_neg hk]
      simp only [List.map_cons, List.nodup_cons]
      refine ⟨?_, ih h.2⟩
      intro hmem
      rcases incrAssoc_keys_mem t k kv.1 hmem with hmem2 | rfl
      · exact h.1 hmem2
      · exact hk rfl

/-- The `N_alpha_beta` dict keeps distinct keys throughout the loop. -/
theorem reader_loop_Nab_nodup (skipRC : Bool) (mt Mt : Option ℚ) :
    ∀ (lines : List EventRec) (st st' : ReaderLoopState),
    (st.N_alpha_beta.map Prod.fst).Nodup →
    reader_loop skipRC mt Mt lines st = Except.ok st' →
    (st'.N_alpha_beta.map Prod.fst).Nodup := by
  intro lines
  induction lines with
  | nil =>
    intro st st' hnd h
    rw [reader_loop] at h
    exact (Except.ok.inj h) ▸ hnd
  | cons line rest ih =>
    intro st st' hnd h
    rw [reader_loop] at h
    by_cases hmin : belowMinTime mt line.dest_time
    · rw [if_pos hmin] at h
      exact ih st st' hnd h
    · rw [if_neg hmin] at h
      by_cases hmax : aboveMaxTime Mt line.dest_time
      · rw [if_pos hmax] at h
        exact (Except.ok.inj h) ▸ hnd
      · rw [if_neg hmax] at h
        cases hsrc : st.src_boundary with
        | none =>
          simp only [hsrc] at h
          refine ih _ st' ?_ h
          exact hnd
        | some src =>
          simp only [hsrc] at h
          by_cases hc1 : src ≠ line.dest_boundary ∧ skipRC = false
              ∧ line.dest_time - st.src_time < 0
          · rw [if_pos hc1] at h
            exact absurd h (by simp)
          · rw [if_neg hc1] at h
            by_cases hc2 : line.dest_time
                - (transitionStep src line st).last_bounce_time < 0
            · rw [if_pos hc2] at h
              exact absurd h (by simp)
            · rw [if_neg hc2] at h
              refine ih _ st' ?_ h
              show (((bounceStep line
                  (transitionStep src line st)).N_alpha_beta).map
                    Prod.fst).Nodup
              have htr : (transitionStep src line st).N_alpha_beta
                  = st.N_alpha_beta := by
                rw [transitionStep]
                split <;> rfl
              simp only [bounceStep, htr]
              exact incrAssoc_keys_nodup st.N_alpha_beta line.dest_boundary hnd

theorem reader_finalize_N_alpha_beta (st : ReaderLoopState) :
    (reader_finalize st).N_alpha_beta = st.N_alpha_beta := by
  rw [reader_finalize]
  split <;> rfl

/-- A successful `reader_stats` returns the very lines it was given, and
its `N_alpha_beta` keys are distinct. -/
theorem reader_stats_ok_shape (mt Mt : Option ℚ) (b : Bool)
    (ls0 : List EventRec) (out : ReaderOutput) (ls : List EventRec)
    (h : reader_stats mt Mt b ls0 = Except.ok (out, ls)) :
    ls = ls0 ∧ reader_stats mt Mt b ls = Except.ok (out, ls)
    ∧ (out.N_alpha_beta.map Prod.fst).Nodup := by
  rw [reader_stats] at h
  cases hloop : reader_loop b mt Mt ls0 initialReaderLoopState with
  | error e =>
    simp only [hloop] at h
    exact absurd h (by simp)
  | ok stf =>
    simp only [hloop] at h
    have hpair := Except.ok.inj h
    have hls : ls = ls0 := (congrArg Prod.snd hpair).symm
    have hout : reader_finalize stf = out := congrArg Prod.fst hpair
    subst hls
    refine ⟨rfl, ?_, ?_⟩
    · rw [reader_stats]
      simp only [hloop]
      rw [hpair]
    · rw [← hout, reader_finalize_N_alpha_beta]
      exact reader_loop_Nab_nodup b mt Mt ls initialReaderLoopState stf
        (by simp [initialReaderLoopState]) hloop

/-- C8: re-invoking `MMVT_anchor_statistics.read_output_file_list` a second
time with the same file list, the same `min_time`/`max_time`, and no new
log data yields exactly the state of the first (full) read: the statistics
fields are overwritten with the same values, the cached lines are reused,
and every `k_alpha_beta[key]` is re-assigned its existing value. -/
theorem C8_reread_idempotent (st : MMVT_anchor_statistics)
    (output_file_list : List (List EventRec)) (min_time max_time : Option ℚ)
    (s1 : MMVT_anchor_statistics)
    (h : anchor_read_output_file_list st output_file_list min_time max_time
        = Except.ok s1) :
    anchor_read_output_file_list s1 output_file_list min_time max_time
      = Except.ok s1 := by
  rw [anchor_read_output_file_list] at h
  have hstats : ∃ ls0, reader_stats min_time max_time false ls0
      = (openmm_read_output_file_list output_file_list min_time max_time
          st.existing_lines false) := by
    rw [openmm_read_output_file_list.eq_def]
    cases hex : st.existing_lines with
    | some ls0 => exact ⟨ls0, rfl⟩
    | none =>
      cases hrl : read_lines_phase output_file_list false with
      | none =>
        rw [openmm_read_output_file_list.eq_def, hex, hrl] at h
        simp at h
      | some ls0 => exact ⟨ls0, rfl⟩
  rcases hstats with ⟨ls0, hst0⟩
  rw [← hst0] at h
  cases hr : reader_stats min_time max_time false ls0 with
  | error e =>
    rw [hr] at h
    simp at h
  | ok pr =>
    obtain ⟨out, ls⟩ := pr
    simp only [hr] at h
    obtain ⟨hls, hre, hnd⟩ :=
      reader_stats_ok_shape min_time max_time false ls0 out ls hr
    by_cases hT : out.T_alpha_total < 0
    · rw [if_pos hT] at h
      simp at h
    · rw [if_neg hT] at h
      have hs1 := Except.ok.inj h
      rw [anchor_read_output_file_list]
      have hex2 : s1.existing_lines = some ls := by rw [← hs1]
      have hread2 : openmm_read_output_file_list output_file_list min_time
          max_time s1.existing_lines false = Except.ok (out, ls) := by
        rw [openmm_read_output_file_list.eq_def, hex2]
        exact hre
      simp only [hread2]
      rw [if_neg hT]
      have hk1 : s1.k_alpha_beta = out.N_alpha_beta.foldl
          (fun d kv => setAssoc d kv.1 ((kv.2 : ℚ) / out.T_alpha_total))
          st.k_alpha_beta := by rw [← hs1]
      have hfold : out.N_alpha_beta.foldl
          (fun d kv => setAssoc d kv.1 ((kv.2 : ℚ) / out.T_alpha_total))
          s1.k_alpha_beta = s1.k_alpha_beta := by
        rw [hk1]
        have hmap : ∀ dd : List (ℤ × ℚ), out.N_alpha_beta.foldl
            (fun d kv => setAssoc d kv.1 ((kv.2 : ℚ) / out.T_alpha_total)) dd
            = (out.N_alpha_beta.map
                (fun kv => (kv.1, (kv.2 : ℚ) / out.T_alpha_total))).foldl
                (fun d kv => setAssoc d kv.1 kv.2) dd := by
          intro dd
          rw [List.foldl_map]
        rw [hmap, hmap]
        refine foldl_set_idem _ st.k_alpha_beta ?_
        have : (out.N_alpha_beta.map
            (fun kv => (kv.1, (kv.2 : ℚ) / out.T_alpha_total))).map Prod.fst
            = out.N_alpha_beta.map Prod.fst := by
          rw [List.map_map]
          rfl
        rw [this]
        exact hnd
      rw [hfold, ← hs1]

/-- The anchor-statistics state after one read of the C8 witness file. -/
def c8S1 : MMVT_anchor_statistics :=
  ⟨some ⟨[((0, 1), 1)], [(some 0, [2])], [(some 0, 2)], [(some 0, 2)],
      [(1, 1)], [2], 2, 2⟩,
   [(1, 1 / 2)],
   some [⟨0, 0, 1⟩, ⟨1, 1, 3⟩]⟩

/-- Witness for C8: a second read of the same single file from the state
produced by the first read reproduces that state exactly. -/
theorem C8_reread_idempotent_witness :
    anchor_read_output_file_list c8S1 [[⟨0, 0, 1⟩, ⟨1, 1, 3⟩]] none none
      = Except.ok c8S1 :=
  C8_reread_idempotent initial_anchor_statistics [[⟨0, 0, 1⟩, ⟨1, 1, 3⟩]]
    none none c8S1
    (by norm_num [anchor_read_output_file_list, initial_anchor_statistics,
      openmm_read_output_file_list, read_lines_phase, restart_merge,
      truncate_file, restartPopLoop, next_start_time, BIG_TIME, MAX_ITER,
      reader_stats, reader_loop, transitionStep, bounceStep, reader_finalize,
      initialReaderLoopState, belowMinTime, aboveMaxTime, incrAssoc,
      appendAssoc, setAssoc, c8S1, List.filter])

/-! ## Claim C4 (amended): restart truncation on per-file-sorted logs -/

/-- Order of event records by timestamp. -/
def timeLE (a b : EventRec) : Prop := a.dest_time ≤ b.dest_time

/-- The first event time of a file (files are non-empty where this is
used, matching `start_times` of the source). -/
def startTimeOf (f : List EventRec) : ℚ := (f.headD ⟨0, 0, 0⟩).dest_time

/-- Modelled from the spec's amended wording: each file keeps exactly its
events at or before the next file's restart point; events strictly after
the restart point are discarded. -/
def spec_restart_merge : List (List EventRec) → List EventRec
  | [] => []
  | f :: rest =>
    f.takeWhile (fun r => decide (r.dest_time ≤ next_start_time rest))
      ++ spec_restart_merge rest

theorem dropWhile_append_of_all {α : Type} (p : α → Bool) (xs ys : List α)
    (h : ∀ x ∈ xs, p x = true) :
    (xs ++ ys).dropWhile p = ys.dropWhile p := by
  induction xs with
  | nil => rfl
  | cons x t ih =>
    rw [List.cons_append, List.dropWhile_cons, h x (List.mem_cons_self _ _)]
    simp only [if_true]
    exact ih (fun y hy => h y (List.mem_cons_of_mem _ hy))

theorem sorted_head_le (f : List EventRec)
    (hsort : List.Pairwise timeLE f) (r : EventRec) (hr : r ∈ f) :
    startTimeOf f ≤ r.dest_time := by
  cases f with
  | nil => exact absurd hr (List.not_mem_nil r)
  | cons h t =>
    rcases List.mem_cons.mp hr with rfl | hmem
    · show r.dest_time ≤ r.dest_time
      exact le_refl _
    · exact (List.pairwise_cons.mp hsort).1 r hmem

theorem reverse_dropWhile_eq_takeWhile_reverse (ns : ℚ) (f : List EventRec)
    (hsort : List.Pairwise timeLE f)
    (hA : f.takeWhile (fun r => decide (r.dest_time ≤ ns)) ≠ []) :
    f.reverse.dropWhile (fun r => decide (ns < r.dest_time))
      = (f.takeWhile (fun r => decide (r.dest_time ≤ ns))).reverse := by
  have hsplit : f.takeWhile (fun r => decide (r.dest_time ≤ ns))
      ++ f.dropWhile (fun r => decide (r.dest_time ≤ ns)) = f :=
    List.takeWhile_append_dropWhile _ f
  have hdropall : ∀ x ∈ f.dropWhile (fun r => decide (r.dest_time ≤ ns)),
      (fun r : EventRec => decide (ns < r.dest_time)) x = true := by
    intro x hx
    cases hd : f.dropWhile (fun r => decide (r.dest_time ≤ ns)) with
    | nil =>
      rw [hd] at hx
      exact absurd hx (List.not_mem_nil _)
    | cons y ys =>
      have hqy : (fun r : EventRec => decide (r.dest_time ≤ ns)) y = false := by
        have hh := List.head?_dropWhile_not
          (fun r : EventRec => decide (r.dest_time ≤ ns)) f
        rw [hd] at hh
        simpa using hh
      have hny : ns < y.dest_time := by
        simp only [decide_eq_false_iff_not, not_le] at hqy
        exact hqy
      have hsorted2 : List.Pairwise timeLE (y :: ys) := by
        rw [← hd]
        exact hsort.sublist (List.dropWhile_sublist _)
      rw [hd] at hx
      simp only [decide_eq_true_eq]
      rcases List.mem_cons.mp hx with rfl | hx2
      · exact hny
      · exact lt_of_lt_of_le hny ((List.pairwise_cons.mp hsorted2).1 x hx2)
  have hrev : f.reverse
      = (f.dropWhile (fun r => decide (r.dest_time ≤ ns))).reverse
        ++ (f.takeWhile (fun r => decide (r.dest_time ≤ ns))).reverse := by
    rw [← List.reverse_append, hsplit]
  rw [hrev, dropWhile_append_of_all _ _ _
    (fun x hx => hdropall x (List.mem_reverse.mp hx))]
  cases hA2 : (f.takeWhile (fun r => decide (r.dest_time ≤ ns))).reverse with
  | nil =>
    exfalso
    exact hA (by simpa using congrArg List.reverse hA2)
  | cons y ys =>
    have hy : y ∈ f.takeWhile (fun r => decide (r.dest_time ≤ ns)) := by
      have : y ∈ (f.takeWhile (fun r => decide (r.dest_time ≤ ns))).reverse := by
        rw [hA2]
        exact List.mem_cons_self _ _
      exact List.mem_reverse.mp this
    have hqy := List.mem_takeWhile_imp hy
    simp only [decide_eq_true_eq] at hqy
    have hpy : decide (ns < y.dest_time) = false := by
      simp only [decide_eq_false_iff_not, not_lt]
      exact hqy
    simp [List.dropWhile_cons, hpy]

theorem restartPopLoop_stop (ns : ℚ) (c : ℕ) (x : EventRec)
    (rest : List EventRec) (hx : ¬ ns < x.dest_time) :
    restartPopLoop ns c (x :: rest) = some (x :: rest) := by
  cases rest with
  | nil =>
    show (if ns < x.dest_time then none else some [x]) = some [x]
    rw [if_neg hx]
  | cons y ys =>
    show (if ns < x.dest_time then
            (if MAX_ITER < c then some (y :: ys)
             else restartPopLoop ns (c + 1) (y :: ys))
          else some (x :: y :: ys)) = some (x :: y :: ys)
    rw [if_neg hx]

theorem restartPopLoop_eq_dropWhile (ns : ℚ) (r : List EventRec) :
    ∀ (c : ℕ),
    r.dropWhile (fun x => decide (ns < x.dest_time)) ≠ [] →
    c + r.length ≤ MAX_ITER + 1 →
    restartPopLoop ns c r
      = some (r.dropWhile (fun x => decide (ns < x.dest_time))) := by
  induction r with
  | nil =>
    intro c h _
    simp at h
  | cons x rest ih =>
    intro c hne hlen
    by_cases hx : ns < x.dest_time
    · have hdx : (x :: rest).dropWhile (fun x => decide (ns < x.dest_time))
          = rest.dropWhile (fun x => decide (ns < x.dest_time)) := by
        simp [List.dropWhile_cons, hx]
      rw [hdx] at hne
      rw [hdx]
      cases rest with
      | nil => simp at hne
      | cons y ys =>
        have hcM : ¬ MAX_ITER < c := by
          simp only [List.length_cons] at hlen
          omega
        show (if ns < x.dest_time then
                (if MAX_ITER < c then some (y :: ys)
                 else restartPopLoop ns (c + 1) (y :: ys))
              else some (x :: y :: ys))
            = some ((y :: ys).dropWhile (fun x => decide (ns < x.dest_time)))
        rw [if_pos hx, if_neg hcM]
        refine ih (c + 1) hne ?_
        simp only [List.length_cons] at hlen ⊢
        omega
    · rw [restartPopLoop_stop ns c x rest hx]
      have hdx : (x :: rest).dropWhile (fun x => decide (ns < x.dest_time))
          = x :: rest := by
        simp [List.dropWhile_cons, hx]
      rw [hdx]

theorem truncate_file_sorted (ns : ℚ) (f : List EventRec)
    (hsort : List.Pairwise timeLE f) (hf : f ≠ [])
    (hhead : startTimeOf f ≤ ns) (hlen : f.length ≤ MAX_ITER) :
    truncate_file f ns
      = some (f.takeWhile (fun r => decide (r.dest_time ≤ ns))) := by
  have hA : f.takeWhile (fun r => decide (r.dest_time ≤ ns)) ≠ [] := by
    cases f with
    | nil => exact absurd rfl hf
    | cons h t =>
      have hh : decide (h.dest_time ≤ ns) = true := by
        simp only [decide_eq_true_eq]
        exact hhead
      rw [List.takeWhile_cons, hh]
      simp
  have hrd := reverse_dropWhile_eq_takeWhile_reverse ns f hsort hA
  have hne : f.reverse.dropWhile (fun x => decide (ns < x.dest_time)) ≠ [] := by
    rw [hrd]
    simpa using hA
  have hlen2 : 0 + f.reverse.length ≤ MAX_ITER + 1 := by
    simp only [List.length_reverse, Nat.zero_add]
    omega
  rw [truncate_file, restartPopLoop_eq_dropWhile ns f.reverse 0 hne hlen2, hrd]
  simp

theorem restart_merge_spec :
    ∀ fs : List (List EventRec),
    (∀ f ∈ fs, f ≠ []) →
    (∀ f ∈ fs, List.Pairwise timeLE f) →
    (∀ f ∈ fs, ∀ r ∈ f, r.dest_time ≤ BIG_TIME) →
    (∀ f ∈ fs, f.length ≤ MAX_ITER) →
    List.Chain' (fun f g => startTimeOf f ≤ startTimeOf g) fs →
    restart_merge fs = some (spec_restart_merge fs)
    ∧ List.Pairwise timeLE (spec_restart_merge fs)
    ∧ (∀ r ∈ spec_restart_merge fs, ∀ g ∈ fs.head?,
        startTimeOf g ≤ r.dest_time) := by
  intro fs
  induction fs with
  | nil =>
    intro _ _ _ _ _
    exact ⟨rfl, List.Pairwise.nil, by simp⟩
  | cons f rest ih =>
    intro hne hsort hbig hlen hchain
    have hf : f ≠ [] := hne f (List.mem_cons_self _ _)
    have hfs : List.Pairwise timeLE f := hsort f (List.mem_cons_self _ _)
    have hheadle : startTimeOf f ≤ next_start_time rest := by
      cases rest with
      | nil =>
        show startTimeOf f ≤ BIG_TIME
        cases hfc : f with
        | nil => exact absurd hfc hf
        | cons h t =>
          show h.dest_time ≤ BIG_TIME
          exact hbig f (List.mem_cons_self _ _) h (by rw [hfc]; exact List.mem_cons_self _ _)
      | cons g r2 =>
        show startTimeOf f ≤ startTimeOf g
        exact (List.chain'_cons.mp hchain).1
    have htr := truncate_file_sorted (next_start_time rest) f hfs hf hheadle
      (hlen f (List.mem_cons_self _ _))
    obtain ⟨ihm, ihp, ihb⟩ := ih
      (fun g hg => hne g (List.mem_cons_of_mem _ hg))
      (fun g hg => hsort g (List.mem_cons_of_mem _ hg))
      (fun g hg => hbig g (List.mem_cons_of_mem _ hg))
      (fun g hg => hlen g (List.mem_cons_of_mem _ hg))
      hchain.tail
    refine ⟨?_, ?_, ?_⟩
    · rw [restart_merge, htr, ihm]
      rfl
    · show List.Pairwise timeLE
        (f.takeWhile (fun r => decide (r.dest_time ≤ next_start_time rest))
          ++ spec_restart_merge rest)
      refine List.pairwise_append.mpr ⟨hfs.sublist (List.takeWhile_sublist _),
        ihp, ?_⟩
      intro a ha b hb
      have haub : a.dest_time ≤ next_start_time rest := by
        have := List.mem_takeWhile_imp ha
        simpa using this
      cases rest with
      | nil =>
        simp [spec_restart_merge] at hb
      | cons g r2 =>
        have hgb : startTimeOf g ≤ b.dest_time :=
          ihb b hb g (by simp)
        show a.dest_time ≤ b.dest_time
        calc a.dest_time ≤ next_start_time (g :: r2) := haub
          _ = startTimeOf g := rfl
          _ ≤ b.dest_time := hgb
    · intro r hr g hg
      simp only [List.head?_cons, Option.mem_def, Option.some.injEq] at hg
      subst hg
      rcases List.mem_append.mp hr with hr1 | hr2
      · exact sorted_head_le f hfs r ((List.takeWhile_sublist _).subset hr1)
      · cases rest with
        | nil => simp [spec_restart_merge] at hr2
        | cons g2 r2 =>
          have h1 : startTimeOf f ≤ startTimeOf g2 :=
            (List.chain'_cons.mp hchain).1
          have h2 : startTimeOf g2 ≤ r.dest_time := ihb r hr2 g2 (by simp)
          show startTimeOf f ≤ r.dest_time
          linarith

/-- C4 (amended): with the restart check enabled, on any file list whose
files are internally sorted by time, whose (non-empty) files have
non-decreasing start times, whose times stay below the `1e99` sentinel and
whose files are shorter than `MAX_ITER`: the merged line list is exactly
the spec-side merge — each file keeps precisely its events at or before the
next file's first event time (events strictly AFTER the restart point are
discarded; an event exactly at the restart point is kept) — and the merged
timestamps are monotonically non-decreasing (ties occur when an event
coincides with the restart point). -/
theorem C4_restart_merge_sorted (output_file_list : List (List EventRec))
    (hsort : ∀ f ∈ output_file_list, List.Pairwise timeLE f)
    (hbig : ∀ f ∈ output_file_list, ∀ r ∈ f, r.dest_time ≤ BIG_TIME)
    (hlen : ∀ f ∈ output_file_list, f.length ≤ MAX_ITER)
    (hchain : List.Chain' (fun f g => startTimeOf f ≤ startTimeOf g)
        (output_file_list.filter (fun f => !f.isEmpty))) :
    read_lines_phase output_file_list false
      = some (spec_restart_merge
          (output_file_list.filter (fun f => !f.isEmpty)))
    ∧ List.Pairwise timeLE
        (spec_restart_merge (output_file_list.filter (fun f => !f.isEmpty))) := by
  have hmem : ∀ f ∈ output_file_list.filter (fun f => !f.isEmpty),
      f ∈ output_file_list ∧ f ≠ [] := by
    intro f hf
    refine ⟨List.mem_of_mem_filter hf, ?_⟩
    have := List.of_mem_filter hf
    simpa using this
  obtain ⟨h1, h2, _⟩ := restart_merge_spec
    (output_file_list.filter (fun f => !f.isEmpty))
    (fun f hf => (hmem f hf).2)
    (fun f hf => hsort f (hmem f hf).1)
    (fun f hf => hbig f (hmem f hf).1)
    (fun f hf => hlen f (hmem f hf).1)
    hchain
  exact ⟨h1, h2⟩

/-- Witness for the amended C4: two sorted files whose second starts at
time 2, equal to the first file's last event time; the merged sequence
keeps the boundary event and is non-decreasing. -/
theorem C4_restart_merge_sorted_witness :
    read_lines_phase [[⟨0, 0, 1⟩, ⟨0, 1, 2⟩], [⟨0, 2, 2⟩, ⟨0, 3, 4⟩]] false
      = some (spec_restart_merge
          (([[⟨0, 0, 1⟩, ⟨0, 1, 2⟩], [⟨0, 2, 2⟩, ⟨0, 3, 4⟩]]
            : List (List EventRec)).filter (fun f => !f.isEmpty)))
    ∧ List.Pairwise timeLE
        (spec_restart_merge
          (([[⟨0, 0, 1⟩, ⟨0, 1, 2⟩], [⟨0, 2, 2⟩, ⟨0, 3, 4⟩]]
            : List (List EventRec)).filter (fun f => !f.isEmpty))) :=
  C4_restart_merge_sorted [[⟨0, 0, 1⟩, ⟨0, 1, 2⟩], [⟨0, 2, 2⟩, ⟨0, 3, 4⟩]]
    (by norm_num [timeLE, List.pairwise_cons])
    (by norm_num [BIG_TIME])
    (by norm_num [MAX_ITER])
    (by norm_num [List.filter, startTimeOf, List.chain'_cons])

/-! ## Claim C1: `calculate_pi_alpha` (mmvt_analyze.py lines 819-899)

`Anchor.alias_from_neighbor_id` is translated from the identical accessor
on the anchor classes (src: `elber_cv_base.py` lines 236-290); dict
semantics make the last matching milestone win.  `self.k_alpha_beta` is a
`defaultdict(float)` (missing keys read as 0), modelled as a total
function.  `x` stands for the vector returned by
`la.solve(flux_matrix.T, prob_equil)` — `la.solve` raises on a singular
matrix and otherwise returns the unique solution, which the theorems pin
down with the hypothesis `flux_matrixᵀ · x = e_bulk`. -/

/-- Alias of the milestone bordering the given neighbor anchor. -/
def Anchor.alias_from_neighbor_id (a : Anchor) (neighbor_id : ℕ) : Option ℕ :=
  a.milestones.foldl
    (fun acc m =>
      if m.neighbor_anchor_index = neighbor_id then some m.alias_index else acc)
    none

/-- The `1e30` pseudo-absorbing entry written into the bulk row. -/
def BIG_FLUX : ℚ := 10 ^ 30

/-- `FLUX_MATRIX_K_EXPONENT = 1000`. -/
def FLUX_MATRIX_K_EXPONENT : ℕ := 1000

/-- The embedding `Fin (n-1) → Fin n` for the sub-block indices
`range(flux_matrix_dimension - 1)`. -/
def castF {n : ℕ} (i : Fin (n - 1)) : Fin n := Fin.castLE (Nat.sub_le n 1) i

/-- `column_sum[alpha]`: only the non-bulk, off-diagonal, adjacent entries
contribute (the bulk-column 1.0 does not). -/
def flux_column_sum (n : ℕ) (anchors : Fin n → Anchor)
    (k : Fin n → Fin n → ℚ) (alpha : Fin n) : ℚ :=
  ∑ beta : Fin n,
    if (anchors beta).bulkstate = false ∧ beta ≠ alpha
        ∧ ((anchors alpha).alias_from_neighbor_id
            (anchors beta).index).isSome then
      (if (anchors alpha).milestones.length = 1 then 1 * k alpha beta
       else k alpha beta)
    else 0

/-- The flux matrix after the construction loop (assuming the loop's
"only one bulk state" assertion holds — the guarded caller below checks
it): the bulk row has diagonal 1 and `1e30` at the columns of anchors
bordering the bulk (0 otherwise); a non-bulk row has 1.0 in every bulk
column, the (possibly dead-end-scaled, factor `1.0 *`) `k_alpha_beta`
rates at adjacent non-bulk columns, 0 at non-adjacent ones, and minus its
`column_sum` on the diagonal. -/
def flux_matrix (n : ℕ) (anchors : Fin n → Anchor)
    (k : Fin n → Fin n → ℚ) : Matrix (Fin n) (Fin n) ℚ :=
  fun alpha beta =>
    if (anchors alpha).bulkstate then
      if beta = alpha then 1
      else if (anchors beta).bulkstate then 0
      else if ((anchors beta).alias_from_neighbor_id
          (anchors alpha).index).isSome then BIG_FLUX
      else 0
    else
      if (anchors beta).bulkstate then 1
      else if beta = alpha then -(flux_column_sum n anchors k alpha)
      else if ((anchors alpha).alias_from_neighbor_id
          (anchors beta).index).isSome then
        (if (anchors alpha).milestones.length = 1 then 1 * k alpha beta
         else k alpha beta)
      else 0

/-- `flux_matrix_to_K` (lines 19-32): the `(n-1)×(n-1)` jump matrix with
zero diagonal and `K[i,j] = -M[i,j]/M[i,i]`, guarded by the
`K[i,j] >= 0.0` assertion.  With numpy floats a zero `M[i,i]` yields
`±inf`/`nan`: the assertion then fails except in the (pathological,
never-reached-in-our-theorems) case `M[i,j] < 0`, where `+inf` passes;
the success condition below mirrors exactly that, while the returned
rational value uses `ℚ`'s total division. -/
def flux_matrix_to_K (n : ℕ) (M : Matrix (Fin n) (Fin n) ℚ) :
    Option (Matrix (Fin (n - 1)) (Fin (n - 1)) ℚ) :=
  if ∀ i j : Fin (n - 1), i ≠ j →
      ((M (castF i) (castF i) ≠ 0
          ∧ 0 ≤ -(M (castF i) (castF j)) / M (castF i) (castF i))
        ∨ (M (castF i) (castF i) = 0 ∧ M (castF i) (castF j) < 0)) then
    some (fun i j =>
      if i = j then 0
      else -(M (castF i) (castF j)) / M (castF i) (castF i))
  else none

/-- `pi_alpha_slice[i] = -pi_alpha[i] * flux_matrix[i,i]` for
`i < dimension - 1`. -/
def pi_alpha_slice (n : ℕ) (M : Matrix (Fin n) (Fin n) ℚ)
    (pi0 : Fin n → ℚ) : Fin (n - 1) → ℚ :=
  fun i => -(pi0 (castF i)) * M (castF i) (castF i)

/-- `stationary_dist = matrix_power(K, 1000).T @ pi_alpha_slice`. -/
def stationary_dist (n : ℕ) (K : Matrix (Fin (n - 1)) (Fin (n - 1)) ℚ)
    (slice : Fin (n - 1) → ℚ) : Fin (n - 1) → ℚ :=
  (K ^ FLUX_MATRIX_K_EXPONENT).transpose.mulVec slice

/-- The refinement writes `pi_alpha[i] = -stationary_dist[i]/M[i,i]` for
`i < dimension - 1` and then `pi_alpha[-1] = 0` — the LAST index, whatever
anchor sits there. -/
def pi_alpha_refined (n : ℕ) (M : Matrix (Fin n) (Fin n) ℚ)
    (stationary : Fin (n - 1) → ℚ) : Fin n → ℚ :=
  fun i =>
    if h : i.val < n - 1 then -(stationary ⟨i.val, h⟩) / M i i
    else 0

/-- `pi_alpha = pi_alpha / np.sum(pi_alpha)` (numpy turns a zero sum into
`nan` entries; `ℚ` division by zero gives 0 — either way the normalized
entries do not sum to 1 in that degenerate case). -/
def pi_alpha_normalized (n : ℕ) (v : Fin n → ℚ) : Fin n → ℚ :=
  fun i => v i / ∑ j : Fin n, v j

/-- `MMVT_data_sample.calculate_pi_alpha`, with `x` the `la.solve` result
(`pi0 = abs(x)`).  `none` models the assertion failures: a model without
exactly one bulk anchor, or a negative/undefined entry in `K`. -/
def calculate_pi_alpha (n : ℕ) (anchors : Fin n → Anchor)
    (k : Fin n → Fin n → ℚ) (x : Fin n → ℚ) : Option (Fin n → ℚ) :=
  if (Finset.univ.filter (fun a => (anchors a).bulkstate = true)).card = 1 then
    match flux_matrix_to_K n (flux_matrix n anchors k) with
    | none => none
    | some K =>
      some (pi_alpha_normalized n
        (pi_alpha_refined n (flux_matrix n anchors k)
          (stationary_dist n K
            (pi_alpha_slice n (flux_matrix n anchors k) (fun i => |x i|)))))
  else none

/-- The two-anchor counterexample model: one non-bulk anchor (index 0)
whose single milestone borders the bulk anchor (index 1, last). -/
def c1cAnchors : Fin 2 → Anchor :=
  fun i => if i.val = 0 then ⟨0, false, [⟨0, 1, 0⟩]⟩ else ⟨1, true, []⟩

/-- Valid statistics for the counterexample model: the only observed rate
is anchor 0 → anchor 1 (toward the bulk). -/
def c1cK : Fin 2 → Fin 2 → ℚ :=
  fun a b => if a.val = 0 ∧ b.val = 1 then 1 else 0

/-- The unique solution of `flux_matrixᵀ x = e_bulk` for this model. -/
def c1cX : Fin 2 → ℚ := fun i => if i.val = 0 then 1 else 0

theorem c1c_flux_solution :
    (flux_matrix 2 c1cAnchors c1cK).transpose.mulVec c1cX
      = (fun i : Fin 2 => if i = Fin.last 1 then 1 else 0) := by
  funext j
  fin_cases j <;>
    norm_num [Matrix.mulVec, Matrix.transpose, Fin.sum_univ_two, Matrix.dotProduct,
      flux_matrix, flux_column_sum, c1cAnchors, c1cK, c1cX, BIG_FLUX,
      Anchor.alias_from_neighbor_id, Fin.last]

theorem c1c_eval :
    calculate_pi_alpha 2 c1cAnchors c1cK c1cX = some (fun _ => 0) := by
  have h1 : (Finset.univ.filter
      (fun a : Fin 2 => (c1cAnchors a).bulkstate = true)).card = 1 := by
    decide
  have hsub : ∀ i j : Fin (2 - 1), i = j := by
    intro i j
    have hi := i.isLt
    have hj := j.isLt
    exact Fin.ext (by omega)
  have hK : flux_matrix_to_K 2 (flux_matrix 2 c1cAnchors c1cK)
      = some (0 : Matrix (Fin 1) (Fin 1) ℚ) := by
    rw [flux_matrix_to_K,
      if_pos (fun i j hij => absurd (hsub i j) hij)]
    congr 1
    funext i j
    rw [if_pos (hsub i j)]
    rfl
  rw [calculate_pi_alpha, if_pos h1]
  simp only [hK]
  congr 1
  have hstat : stationary_dist 2 (0 : Matrix (Fin 1) (Fin 1) ℚ)
      (pi_alpha_slice 2 (flux_matrix 2 c1cAnchors c1cK) (fun i => |c1cX i|))
      = fun _ => 0 := by
    rw [stationary_dist, zero_pow (by norm_num [FLUX_MATRIX_K_EXPONENT])]
    funext i
    simp [Matrix.mulVec, Matrix.dotProduct]
  rw [hstat]
  have hrefined : pi_alpha_refined 2 (flux_matrix 2 c1cAnchors c1cK)
      (fun _ => 0) = fun _ => 0 := by
    funext i
    rw [pi_alpha_refined]
    by_cases hi : i.val < 1
    · rw [dif_pos hi]
      simp
    · rw [dif_neg hi]
  rw [hrefined]
  funext i
  rw [pi_alpha_normalized]
  simp

/-- C1 counterexample: on the minimal valid model — exactly one bulk
anchor (last), non-negative rates positive exactly on the observed
anchor-to-neighbor pair, `x` the unique `la.solve` solution —
`calculate_pi_alpha` returns with the non-bulk entries summing to 0, not
1: the refinement block multiplies through the 1×1 jump matrix, which has
a zeroed diagonal, so the whole vector collapses and the final
normalization divides zero by zero (numpy: the returned `pi_alpha` is all
`nan`; in the `ℚ` model all 0 — either way not a distribution). -/
theorem C1_counterexample :
    (flux_matrix 2 c1cAnchors c1cK).transpose.mulVec c1cX
      = (fun i : Fin 2 => if i = Fin.last 1 then 1 else 0)
    ∧ (c1cAnchors (Fin.last 1)).bulkstate = true
    ∧ (∀ i : Fin 2, i ≠ Fin.last 1 → (c1cAnchors i).bulkstate = false)
    ∧ (∀ a b : Fin 2, 0 ≤ c1cK a b)
    ∧ calculate_pi_alpha 2 c1cAnchors c1cK c1cX = some (fun _ => 0)
    ∧ (∑ i ∈ Finset.univ.filter
        (fun i : Fin 2 => (c1cAnchors i).bulkstate = false),
        (fun _ : Fin 2 => (0 : ℚ)) i) ≠ 1 := by
  refine ⟨c1c_flux_solution, by decide, ?_, ?_, c1c_eval, ?_⟩
  · intro i hi
    fin_cases i
    · decide
    · exact absurd rfl hi
  · intro a b
    rw [c1cK]
    by_cases hab : a.val = 0 ∧ b.val = 1
    · rw [if_pos hab]
      norm_num
    · rw [if_neg hab]
  · simp

/-! General stochastic-matrix facts used by the amended C1. -/

/-- Splitting a sum over `Fin (m+1)` into the `castF` image and the last
index. -/
theorem sum_fin_split_last (m : ℕ) (g : Fin (m + 1) → ℚ) :
    ∑ b : Fin (m + 1), g b
      = (∑ j : Fin ((m + 1) - 1), g (castF j)) + g (Fin.last m) :=
  Fin.sum_univ_castSucc g

/-- The sub-block embedding never hits the last index. -/
theorem castF_ne_last (m : ℕ) (j : Fin ((m + 1) - 1)) :
    (castF j : Fin (m + 1)) ≠ Fin.last m := by
  intro h
  have hj : j.val < m := j.isLt
  have hv : ((castF j : Fin (m + 1))).val = m := by rw [h]; rfl
  have hv2 : j.val = m := hv
  omega

/-- The sub-block embedding is injective. -/
theorem castF_inj (m : ℕ) (i j : Fin ((m + 1) - 1))
    (h : (castF i : Fin (m + 1)) = castF j) : i = j := by
  have hv : ((castF i : Fin (m + 1))).val = ((castF j : Fin (m + 1))).val :=
    congrArg Fin.val h
  have hv2 : i.val = j.val := hv
  exact Fin.ext hv2

/-- Row sums equal to one are preserved by matrix powers. -/
theorem matrix_pow_rowsum_one (d : ℕ) (A : Matrix (Fin d) (Fin d) ℚ)
    (hA : ∀ i, ∑ j, A i j = 1) (p : ℕ) : ∀ i, ∑ j, (A ^ p) i j = 1 := by
  induction p with
  | zero =>
    intro i
    rw [pow_zero]
    simp [Matrix.one_apply]
  | succ p ih =>
    intro i
    simp only [pow_succ, Matrix.mul_apply]
    rw [Finset.sum_comm]
    have hz : ∀ l, ∑ j, (A ^ p) i l * A l j = (A ^ p) i l := by
      intro l
      rw [← Finset.mul_sum, hA l, mul_one]
    have hcg : ∑ l, ∑ j, (A ^ p) i l * A l j = ∑ l, (A ^ p) i l :=
      Finset.sum_congr rfl fun l _ => hz l
    rw [hcg]
    exact ih i

/-- Entrywise nonnegativity is preserved by matrix powers. -/
theorem matrix_pow_nonneg (d : ℕ) (A : Matrix (Fin d) (Fin d) ℚ)
    (hA : ∀ i j, 0 ≤ A i j) (p : ℕ) : ∀ i j, 0 ≤ (A ^ p) i j := by
  induction p with
  | zero =>
    intro i j
    rw [pow_zero, Matrix.one_apply]
    split <;> norm_num
  | succ p ih =>
    intro i j
    rw [pow_succ, Matrix.mul_apply]
    exact Finset.sum_nonneg fun l _ => mul_nonneg (ih i l) (hA l j)

/-- Multiplying a vector by the transpose of a matrix with unit row sums
conserves the total mass. -/
theorem sum_transpose_mulVec (d : ℕ) (A : Matrix (Fin d) (Fin d) ℚ)
    (v : Fin d → ℚ) (hA : ∀ i, ∑ j, A i j = 1) :
    ∑ i, A.transpose.mulVec v i = ∑ j, v j := by
  simp only [Matrix.mulVec, Matrix.dotProduct, Matrix.transpose_apply]
  rw [Finset.sum_comm]
  refine Finset.sum_congr rfl fun j _ => ?_
  rw [← Finset.sum_mul, hA j, one_mul]

/-- Multiplying a nonnegative vector by the transpose of a nonnegative
matrix keeps every entry nonnegative. -/
theorem transpose_mulVec_nonneg (d : ℕ) (A : Matrix (Fin d) (Fin d) ℚ)
    (v : Fin d → ℚ) (hA : ∀ i j, 0 ≤ A i j) (hv : ∀ j, 0 ≤ v j) :
    ∀ i, 0 ≤ A.transpose.mulVec v i := by
  intro i
  simp only [Matrix.mulVec, Matrix.dotProduct, Matrix.transpose_apply]
  exact Finset.sum_nonneg fun j _ => mul_nonneg (hA j i) (hv j)

/-- A nonnegative family with positive total has a positive member. -/
theorem exists_pos_of_sum_pos (d : ℕ) (f : Fin d → ℚ)
    (h0 : ∀ i, 0 ≤ f i) (hs : 0 < ∑ i, f i) : ∃ i, 0 < f i := by
  by_contra hno
  push_neg at hno
  have hle : ∑ i, f i ≤ 0 := Finset.sum_nonpos fun i _ => hno i
  linarith

/-- The diagonal of a non-bulk flux-matrix row is the negated column sum. -/
theorem flux_diag_nonbulk (m : ℕ) (anchors : Fin (m + 1) → Anchor)
    (k : Fin (m + 1) → Fin (m + 1) → ℚ)
    (H2 : ∀ i, i ≠ Fin.last m → (anchors i).bulkstate = false)
    (i : Fin (m + 1)) (hi : i ≠ Fin.last m) :
    flux_matrix (m + 1) anchors k i i
      = -(flux_column_sum (m + 1) anchors k i) := by
  simp only [flux_matrix]
  rw [if_neg (by rw [H2 i hi]; simp), if_neg (by rw [H2 i hi]; simp)]
  simp

/-- Off-diagonal flux-matrix entries inside the non-bulk block are
nonnegative whenever the rates are. -/
theorem flux_offdiag_nonneg (m : ℕ) (anchors : Fin (m + 1) → Anchor)
    (k : Fin (m + 1) → Fin (m + 1) → ℚ)
    (H2 : ∀ i, i ≠ Fin.last m → (anchors i).bulkstate = false)
    (H3 : ∀ a b, 0 ≤ k a b) (i j : Fin (m + 1))
    (hi : i ≠ Fin.last m) (hj : j ≠ Fin.last m) (hij : ¬ j = i) :
    0 ≤ flux_matrix (m + 1) anchors k i j := by
  simp only [flux_matrix]
  rw [if_neg (by rw [H2 i hi]; simp), if_neg (by rw [H2 j hj]; simp),
    if_neg hij]
  split
  · split
    · rw [one_mul]
      exact H3 i j
    · exact H3 i j
  · exact le_refl 0

/-- The column sum of a non-bulk anchor equals the sum of its row of the
flux matrix over the non-bulk block (column by column, the summands of
`flux_column_sum` and the matrix entries coincide). -/
theorem flux_colsum_eq_rowsum (m : ℕ) (anchors : Fin (m + 1) → Anchor)
    (k : Fin (m + 1) → Fin (m + 1) → ℚ)
    (H1 : (anchors (Fin.last m)).bulkstate = true)
    (H2 : ∀ i, i ≠ Fin.last m → (anchors i).bulkstate = false)
    (i : Fin (m + 1)) (hi : i ≠ Fin.last m) :
    ∑ j : Fin ((m + 1) - 1),
        (if (castF j : Fin (m + 1)) = i then 0
         else flux_matrix (m + 1) anchors k i (castF j))
      = flux_column_sum (m + 1) anchors k i := by
  rw [flux_column_sum, sum_fin_split_last]
  have hlast0 : ¬((anchors (Fin.last m)).bulkstate = false ∧ Fin.last m ≠ i
      ∧ ((anchors i).alias_from_neighbor_id
          (anchors (Fin.last m)).index).isSome = true) := by
    rintro ⟨hb, -, -⟩
    rw [H1] at hb
    exact absurd hb (by simp)
  rw [if_neg hlast0, add_zero]
  refine Finset.sum_congr rfl fun j _ => ?_
  have hbj : (anchors (castF j : Fin (m + 1))).bulkstate = false :=
    H2 _ (castF_ne_last m j)
  by_cases hji : (castF j : Fin (m + 1)) = i
  · rw [if_pos hji, if_neg]
    rintro ⟨-, hne, -⟩
    exact hne hji
  · rw [if_neg hji]
    simp [flux_matrix, H2 i hi, hbj, hji]

/-- The jump matrix actually produced by `flux_matrix_to_K` on the
translated flux matrix. -/
def flux_K (m : ℕ) (anchors : Fin (m + 1) → Anchor)
    (k : Fin (m + 1) → Fin (m + 1) → ℚ) :
    Matrix (Fin ((m + 1) - 1)) (Fin ((m + 1) - 1)) ℚ :=
  fun i j =>
    if i = j then 0
    else -(flux_matrix (m + 1) anchors k (castF i) (castF j))
          / flux_matrix (m + 1) anchors k (castF i) (castF i)

/-- With one bulk anchor at the last index, nonnegative rates and positive
non-bulk column sums, `flux_matrix_to_K` succeeds and returns `flux_K`. -/
theorem flux_K_eq (m : ℕ) (anchors : Fin (m + 1) → Anchor)
    (k : Fin (m + 1) → Fin (m + 1) → ℚ)
    (H2 : ∀ i, i ≠ Fin.last m → (anchors i).bulkstate = false)
    (H3 : ∀ a b, 0 ≤ k a b)
    (H4 : ∀ i, i ≠ Fin.last m → 0 < flux_column_sum (m + 1) anchors k i) :
    flux_matrix_to_K (m + 1) (flux_matrix (m + 1) anchors k)
      = some (flux_K m anchors k) := by
  have hcond : ∀ i j : Fin ((m + 1) - 1), i ≠ j →
      ((flux_matrix (m + 1) anchors k (castF i) (castF i) ≠ 0
          ∧ 0 ≤ -(flux_matrix (m + 1) anchors k (castF i) (castF j))
              / flux_matrix (m + 1) anchors k (castF i) (castF i))
        ∨ (flux_matrix (m + 1) anchors k (castF i) (castF i) = 0
          ∧ flux_matrix (m + 1) anchors k (castF i) (castF j) < 0)) := by
    intro i j hij
    have hdi := flux_diag_nonbulk m anchors k H2 (castF i) (castF_ne_last m i)
    have hc := H4 (castF i : Fin (m + 1)) (castF_ne_last m i)
    left
    constructor
    · rw [hdi]
      intro h0
      rw [neg_eq_zero] at h0
      exact absurd h0 (ne_of_gt hc)
    · rw [hdi, neg_div_neg_eq]
      refine div_nonneg ?_ (le_of_lt hc)
      refine flux_offdiag_nonneg m anchors k H2 H3 (castF i) (castF j)
        (castF_ne_last m i) (castF_ne_last m j) ?_
      intro h
      exact hij (castF_inj m i j h.symm)
  rw [flux_matrix_to_K, if_pos hcond]
  rfl

/-- `flux_K` is entrywise nonnegative. -/
theorem flux_K_nonneg (m : ℕ) (anchors : Fin (m + 1) → Anchor)
    (k : Fin (m + 1) → Fin (m + 1) → ℚ)
    (H2 : ∀ i, i ≠ Fin.last m → (anchors i).bulkstate = false)
    (H3 : ∀ a b, 0 ≤ k a b)
    (H4 : ∀ i, i ≠ Fin.last m → 0 < flux_column_sum (m + 1) anchors k i) :
    ∀ i j, 0 ≤ flux_K m anchors k i j := by
  intro i j
  by_cases hij : i = j
  · simp [flux_K, hij]
  · simp only [flux_K, if_neg hij]
    rw [flux_diag_nonbulk m anchors k H2 (castF i) (castF_ne_last m i),
      neg_div_neg_eq]
    refine div_nonneg ?_ (le_of_lt (H4 _ (castF_ne_last m i)))
    refine flux_offdiag_nonneg m anchors k H2 H3 (castF i) (castF j)
      (castF_ne_last m i) (castF_ne_last m j) ?_
    intro h
    exact hij (castF_inj m i j h.symm)

/-- Every row of `flux_K` sums to one: the numerators are exactly the
summands of the column sum sitting in the denominator. -/
theorem flux_K_rowsum (m : ℕ) (anchors : Fin (m + 1) → Anchor)
    (k : Fin (m + 1) → Fin (m + 1) → ℚ)
    (H1 : (anchors (Fin.last m)).bulkstate = true)
    (H2 : ∀ i, i ≠ Fin.last m → (anchors i).bulkstate = false)
    (H3 : ∀ a b, 0 ≤ k a b)
    (H4 : ∀ i, i ≠ Fin.last m → 0 < flux_column_sum (m + 1) anchors k i) :
    ∀ i, ∑ j, flux_K m anchors k i j = 1 := by
  intro i
  have hci := castF_ne_last m i
  have hc := H4 (castF i : Fin (m + 1)) hci
  have hstep : ∀ j : Fin ((m + 1) - 1),
      flux_K m anchors k i j
        = (if (castF j : Fin (m + 1)) = castF i then 0
           else flux_matrix (m + 1) anchors k (castF i) (castF j))
            / flux_column_sum (m + 1) anchors k (castF i) := by
    intro j
    by_cases hji : j = i
    · rw [hji]
      simp [flux_K]
    · have hKji : flux_K m anchors k i j
          = -(flux_matrix (m + 1) anchors k (castF i) (castF j))
              / flux_matrix (m + 1) anchors k (castF i) (castF i) := by
        simp [flux_K, Ne.symm hji]
      rw [hKji, flux_diag_nonbulk m anchors k H2 (castF i) hci,
        neg_div_neg_eq, if_neg (fun h => hji (castF_inj m j i h))]
  calc ∑ j, flux_K m anchors k i j
      = ∑ j : Fin ((m + 1) - 1),
          (if (castF j : Fin (m + 1)) = castF i then 0
           else flux_matrix (m + 1) anchors k (castF i) (castF j))
            / flux_column_sum (m + 1) anchors k (castF i) :=
        Finset.sum_congr rfl fun j _ => hstep j
    _ = (∑ j : Fin ((m + 1) - 1),
          (if (castF j : Fin (m + 1)) = castF i then 0
           else flux_matrix (m + 1) anchors k (castF i) (castF j)))
            / flux_column_sum (m + 1) anchors k (castF i) := by
        rw [Finset.sum_div]
    _ = flux_column_sum (m + 1) anchors k (castF i)
          / flux_column_sum (m + 1) anchors k (castF i) := by
        rw [flux_colsum_eq_rowsum m anchors k H1 H2 (castF i) hci]
    _ = 1 := div_self (ne_of_gt hc)

/-- Normalization facts: dividing a vector by its (positive) total fixes a
zero entry at zero and makes the remaining entries sum to one. -/
theorem pi_alpha_normalized_props (n : ℕ) (v : Fin n → ℚ) (b : Fin n)
    (hb : v b = 0) (hS : 0 < ∑ j, v j) :
    pi_alpha_normalized n v b = 0
    ∧ ∑ i ∈ Finset.univ.erase b, pi_alpha_normalized n v i = 1 := by
  have hsum : ∑ i ∈ Finset.univ.erase b, v i = ∑ j, v j := by
    have h0 := Finset.add_sum_erase Finset.univ v (Finset.mem_univ b)
    rw [hb, zero_add] at h0
    exact h0
  constructor
  · simp only [pi_alpha_normalized, hb, zero_div]
  · simp only [pi_alpha_normalized]
    rw [← Finset.sum_div, hsum, div_self (ne_of_gt hS)]

/-- C1 (amended): on a model whose single bulk anchor sits at the LAST
index, with nonnegative rates, a positive internal column sum at every
non-bulk anchor, some non-bulk anchor bordering the bulk anchor, and `x`
solving the transposed flux system, `calculate_pi_alpha` succeeds, fixes
the bulk anchor's entry to 0 and normalizes the non-bulk entries to sum
exactly to 1 (the original claim fails when the bulk anchor is not last or
the jump-matrix product collapses, see the counterexample). -/
theorem C1_pi_alpha_normalized (m : ℕ) (anchors : Fin (m + 1) → Anchor)
    (k : Fin (m + 1) → Fin (m + 1) → ℚ) (x : Fin (m + 1) → ℚ)
    (H1 : (anchors (Fin.last m)).bulkstate = true)
    (H2 : ∀ i, i ≠ Fin.last m → (anchors i).bulkstate = false)
    (H3 : ∀ a b, 0 ≤ k a b)
    (H4 : ∀ i, i ≠ Fin.last m → 0 < flux_column_sum (m + 1) anchors k i)
    (H5 : ∃ jA, jA ≠ Fin.last m
        ∧ ((anchors jA).alias_from_neighbor_id
            (anchors (Fin.last m)).index).isSome = true)
    (H6 : (flux_matrix (m + 1) anchors k).transpose.mulVec x
        = fun i => if i = Fin.last m then 1 else 0) :
    ∃ piv, calculate_pi_alpha (m + 1) anchors k x = some piv
      ∧ piv (Fin.last m) = 0
      ∧ ∑ i ∈ Finset.univ.filter
          (fun i => (anchors i).bulkstate = false), piv i = 1 := by
  have hcard : (Finset.univ.filter
      (fun a : Fin (m + 1) => (anchors a).bulkstate = true)).card = 1 := by
    have hfil : Finset.univ.filter
        (fun a : Fin (m + 1) => (anchors a).bulkstate = true)
          = {Fin.last m} := by
      ext i
      simp only [Finset.mem_filter, Finset.mem_univ, true_and,
        Finset.mem_singleton]
      constructor
      · intro hb
        by_contra hne
        rw [H2 i hne] at hb
        exact absurd hb (by simp)
      · intro he
        rw [he]
        exact H1
    rw [hfil, Finset.card_singleton]
  have hx_exists : ∃ j0 : Fin ((m + 1) - 1), x (castF j0) ≠ 0 := by
    by_contra hall
    push_neg at hall
    have hzero : ∀ i : Fin (m + 1), i ≠ Fin.last m → x i = 0 := by
      intro i hi
      have hne : i.val ≠ m := by
        intro h
        exact hi (Fin.ext (by rw [h]; rfl))
      have hvi : i.val < (m + 1) - 1 := by
        have := i.isLt
        omega
      have h0 := hall ⟨i.val, hvi⟩
      have hci : (castF (⟨i.val, hvi⟩ : Fin ((m + 1) - 1)) : Fin (m + 1)) = i :=
        Fin.ext rfl
      rw [hci] at h0
      exact h0
    obtain ⟨jA, hjA, hadj⟩ := H5
    have h6A : (flux_matrix (m + 1) anchors k).transpose.mulVec x jA
        = if jA = Fin.last m then 1 else 0 := congrFun H6 jA
    rw [if_neg hjA] at h6A
    have hLA : (flux_matrix (m + 1) anchors k).transpose.mulVec x jA
        = flux_matrix (m + 1) anchors k (Fin.last m) jA * x (Fin.last m) := by
      simp only [Matrix.mulVec, Matrix.dotProduct, Matrix.transpose_apply]
      refine Finset.sum_eq_single (Fin.last m) ?_ ?_
      · intro b _ hb
        rw [hzero b hb, mul_zero]
      · intro habs
        exact absurd (Finset.mem_univ _) habs
    have hMlast : flux_matrix (m + 1) anchors k (Fin.last m) jA
        = BIG_FLUX := by
      simp [flux_matrix, H1, H2 jA hjA, hjA, hadj]
    rw [hLA, hMlast] at h6A
    have hxlast : x (Fin.last m) = 0 := by
      rcases mul_eq_zero.mp h6A with hB | hx0
      · exact absurd hB (by norm_num [BIG_FLUX])
      · exact hx0
    have h6L : (flux_matrix (m + 1) anchors k).transpose.mulVec x (Fin.last m)
        = if Fin.last m = Fin.last m then 1 else 0 := congrFun H6 (Fin.last m)
    rw [if_pos rfl] at h6L
    have hLL : (flux_matrix (m + 1) anchors k).transpose.mulVec x (Fin.last m)
        = 0 := by
      simp only [Matrix.mulVec, Matrix.dotProduct, Matrix.transpose_apply]
      refine Finset.sum_eq_zero ?_
      intro b _
      by_cases hb : b = Fin.last m
      · rw [hb, hxlast, mul_zero]
      · rw [hzero b hb, mul_zero]
    rw [hLL] at h6L
    exact absurd h6L (by norm_num)
  obtain ⟨j0, hj0⟩ := hx_exists
  rw [calculate_pi_alpha, if_pos hcard]
  simp only [flux_K_eq m anchors k H2 H3 H4]
  set slice := pi_alpha_slice (m + 1) (flux_matrix (m + 1) anchors k)
    (fun i => |x i|) with hslice_def
  set st := stationary_dist (m + 1) (flux_K m anchors k) slice with hst_def
  set v := pi_alpha_refined (m + 1) (flux_matrix (m + 1) anchors k) st
    with hv_def
  have hslice_eq : ∀ i : Fin ((m + 1) - 1),
      slice i = |x (castF i)| * flux_column_sum (m + 1) anchors k (castF i) := by
    intro i
    rw [hslice_def]
    simp only [pi_alpha_slice]
    rw [flux_diag_nonbulk m anchors k H2 (castF i) (castF_ne_last m i)]
    ring
  have hslice_nonneg : ∀ i, 0 ≤ slice i := by
    intro i
    rw [hslice_eq i]
    exact mul_nonneg (abs_nonneg _) (le_of_lt (H4 _ (castF_ne_last m i)))
  have hslice_sum_pos : 0 < ∑ i, slice i := by
    refine Finset.sum_pos' (fun i _ => hslice_nonneg i)
      ⟨j0, Finset.mem_univ j0, ?_⟩
    rw [hslice_eq j0]
    exact mul_pos (abs_pos.mpr hj0) (H4 _ (castF_ne_last m j0))
  have hst_nonneg : ∀ i, 0 ≤ st i := by
    intro i
    rw [hst_def]
    simp only [stationary_dist]
    exact transpose_mulVec_nonneg _ _ _
      (matrix_pow_nonneg _ _ (flux_K_nonneg m anchors k H2 H3 H4)
        FLUX_MATRIX_K_EXPONENT)
      hslice_nonneg i
  have hst_sum_pos : 0 < ∑ i, st i := by
    have hsum : ∑ i, st i = ∑ i, slice i := by
      rw [hst_def]
      simp only [stationary_dist]
      exact sum_transpose_mulVec _ _ _
        (matrix_pow_rowsum_one _ _ (flux_K_rowsum m anchors k H1 H2 H3 H4)
          FLUX_MATRIX_K_EXPONENT)
    rw [hsum]
    exact hslice_sum_pos
  obtain ⟨i0, hi0⟩ := exists_pos_of_sum_pos _ st hst_nonneg hst_sum_pos
  have hv_last : v (Fin.last m) = 0 := by
    rw [hv_def]
    simp only [pi_alpha_refined]
    rw [dif_neg (by simp)]
  have hv_cast : ∀ j : Fin ((m + 1) - 1),
      v (castF j) = st j / flux_column_sum (m + 1) anchors k (castF j) := by
    intro j
    rw [hv_def]
    simp only [pi_alpha_refined]
    rw [dif_pos (show ((castF j : Fin (m + 1))).val < (m + 1) - 1
      from j.isLt)]
    show -(st j) / flux_matrix (m + 1) anchors k (castF j) (castF j)
        = st j / flux_column_sum (m + 1) anchors k (castF j)
    rw [flux_diag_nonbulk m anchors k H2 (castF j) (castF_ne_last m j),
      neg_div_neg_eq]
  have hS_pos : 0 < ∑ i, v i := by
    rw [sum_fin_split_last m v, hv_last, add_zero]
    refine Finset.sum_pos' (fun j _ => ?_) ⟨i0, Finset.mem_univ i0, ?_⟩
    · rw [hv_cast j]
      exact div_nonneg (hst_nonneg j) (le_of_lt (H4 _ (castF_ne_last m j)))
    · rw [hv_cast i0]
      exact div_pos hi0 (H4 _ (castF_ne_last m i0))
  have hprops := pi_alpha_normalized_props (m + 1) v (Fin.last m) hv_last
    hS_pos
  refine ⟨pi_alpha_normalized (m + 1) v, rfl, hprops.1, ?_⟩
  have hfil2 : Finset.univ.filter
      (fun i : Fin (m + 1) => (anchors i).bulkstate = false)
        = Finset.univ.erase (Fin.last m) := by
    ext i
    simp only [Finset.mem_filter, Finset.mem_univ, true_and,
      Finset.mem_erase, and_true]
    constructor
    · intro hb hlast
      rw [hlast, H1] at hb
      exact absurd hb (by simp)
    · intro hne
      exact H2 i hne
  rw [hfil2]
  exact hprops.2

/-- The three-anchor witness model: anchor 0 is a non-bulk dead end
bordering only anchor 1, anchor 1 is non-bulk bordering both neighbors,
anchor 2 (last) is the bulk anchor. -/
def c1wAnchors : Fin 3 → Anchor :=
  fun i =>
    if i.val = 0 then ⟨0, false, [⟨0, 1, 0⟩]⟩
    else if i.val = 1 then ⟨1, false, [⟨0, 0, 1⟩, ⟨1, 2, 2⟩]⟩
    else ⟨2, true, []⟩

/-- Witness statistics: unit rates on the observed crossings. -/
def c1wK : Fin 3 → Fin 3 → ℚ :=
  fun a b =>
    if a.val = 0 ∧ b.val = 1 then 1
    else if a.val = 1 ∧ (b.val = 0 ∨ b.val = 2) then 1
    else 0

/-- The solution of the transposed flux system for the witness model. -/
def c1wX : Fin 3 → ℚ := fun i => if i.val = 2 then 0 else 1 / 2

/-- Witness for the amended C1 on the three-anchor model. -/
theorem C1_pi_alpha_normalized_witness :
    ∃ piv, calculate_pi_alpha (2 + 1) c1wAnchors c1wK c1wX = some piv
      ∧ piv (Fin.last 2) = 0
      ∧ ∑ i ∈ Finset.univ.filter
          (fun i => (c1wAnchors i).bulkstate = false), piv i = 1 :=
  C1_pi_alpha_normalized 2 c1wAnchors c1wK c1wX
    (by decide)
    (by decide)
    (by decide)
    (by
      intro i hi
      fin_cases i
      · show (0 : ℚ) < flux_column_sum 3 c1wAnchors c1wK 0
        norm_num [flux_column_sum, c1wAnchors, c1wK,
          Anchor.alias_from_neighbor_id, Fin.sum_univ_three]
      · show (0 : ℚ) < flux_column_sum 3 c1wAnchors c1wK 1
        norm_num [flux_column_sum, c1wAnchors, c1wK,
          Anchor.alias_from_neighbor_id, Fin.sum_univ_three]
      · exact absurd (by decide) hi)
    ⟨1, by decide, by decide⟩
    (by
      show (flux_matrix 3 c1wAnchors c1wK).transpose.mulVec c1wX
          = fun i : Fin 3 => if i = Fin.last 2 then 1 else 0
      funext j
      fin_cases j <;>
        norm_num [Matrix.mulVec, Matrix.transpose, Fin.sum_univ_three,
          Matrix.dotProduct, flux_matrix, flux_column_sum, c1wAnchors, c1wK,
          c1wX, BIG_FLUX, Anchor.alias_from_neighbor_id, Fin.last,
          Fin.ext_iff])

end Seekr2
